import Mathlib

/-!
# rxss: reflected-parameter scanner

A shallow embedding of `processURL` from `rxss.go` together with the parts of the Go
standard library it calls (`strings`, `net/url`, `net/http` headers, `encoding/json`
string encoding), followed by theorems about the scan pipeline.

Modelling decisions:

* Go strings are byte sequences, so a string is a list of bytes.
* Printing is modelled by structured events, one constructor per format string.
* The HTTP round trip and the order in which `range` visits a map are supplied by a
  `Runtime` record; theorems about every run assume that `range` yields each key once.
* A map is a list of bindings with distinct keys; sorting the keys (as `Values.Encode`
  and `json.Marshal` do) makes the results independent of the order of the bindings.
* `url.Parse` is modelled as far as the query and the fragment go; scheme, authority and
  path are carried as one piece of text and printed back as written.
* The library is the current one: `url.ParseQuery` drops pairs that hold a semicolon,
  `json.Marshal` escapes for HTML and writes `\b` and `\f` in short form.  No limit on
  the number of pairs of a query is modelled.
* The JSON text of a request body is read back by a reader written from RFC 8259
  (`parseFlatObject`), which shares nothing with the encoder.
* Writes to the output file succeed.
-/

namespace Rxss

/-! ## Bytes and strings -/

abbrev Byte := Fin 256

abbrev Str := List Byte

/-- The byte of an ASCII character. -/
def ch (c : Char) : Byte := ⟨c.toNat % 256, Nat.mod_lt _ (by decide)⟩

/-- The bytes of an ASCII string literal. -/
def ascii (s : String) : Str := s.toList.map ch

/-- Go's `strings.HasPrefix(s, p)`. -/
def startsWith : Str → Str → Bool
  | _, [] => true
  | [], _ :: _ => false
  | c :: s, d :: p => decide (c = d) && startsWith s p

/-- Go's `strings.Contains(s, substr)`: `substr` occurs at some offset of `s`. -/
def Contains : Str → Str → Bool
  | [], substr => startsWith [] substr
  | c :: s, substr => startsWith (c :: s) substr || Contains s substr

/-- Go's `strings.Cut(s, sep)` for a one-byte separator: text before the first `sep`,
text after it, and whether `sep` was found. -/
def Cut (sep : Byte) : Str → Str × Str × Bool
  | [] => ([], [], false)
  | c :: s =>
    if c = sep then ([], s, true)
    else ((c :: (Cut sep s).1), (Cut sep s).2.1, (Cut sep s).2.2)

/-- Go's `strings.Split(s, sep)` for a one-byte separator. -/
def Split (sep : Byte) : Str → List Str
  | [] => [[]]
  | c :: s =>
    if c = sep then [] :: Split sep s
    else
      match Split sep s with
      | [] => [[c]]
      | seg :: segs => (c :: seg) :: segs

/-- Go's `strings.SplitN(s, sep, 2)` for a one-byte separator. -/
def SplitN2 (sep : Byte) (s : Str) : List Str :=
  if (Cut sep s).2.2 then [(Cut sep s).1, (Cut sep s).2.1] else [s]

/-- Byte patterns of the UTF-8 encodings of the non-ASCII runes for which
`unicode.IsSpace` holds (U+0085, U+00A0, U+1680, U+2000..U+200A, U+2028, U+2029,
U+202F, U+205F, U+3000). -/
def wideSpaces : List Str :=
  [[0xC2, 0x85], [0xC2, 0xA0], [0xE1, 0x9A, 0x80],
   [0xE2, 0x80, 0x80], [0xE2, 0x80, 0x81], [0xE2, 0x80, 0x82], [0xE2, 0x80, 0x83],
   [0xE2, 0x80, 0x84], [0xE2, 0x80, 0x85], [0xE2, 0x80, 0x86], [0xE2, 0x80, 0x87],
   [0xE2, 0x80, 0x88], [0xE2, 0x80, 0x89], [0xE2, 0x80, 0x8A],
   [0xE2, 0x80, 0xA8], [0xE2, 0x80, 0xA9], [0xE2, 0x80, 0xAF], [0xE2, 0x81, 0x9F],
   [0xE3, 0x80, 0x80]]

/-- ASCII white space as in `unicode.IsSpace`: tab, newline, vertical tab, form feed,
carriage return and space. -/
def isAsciiSpace (c : Byte) : Bool :=
  decide (c = 9) || decide (c = 10) || decide (c = 11) || decide (c = 12) ||
  decide (c = 13) || decide (c = 32)

/-- Number of leading bytes of `s` that make up one white-space rune (0 when `s` does not
start with white space). -/
def leadingSpace (s : Str) : Nat :=
  match s with
  | [] => 0
  | c :: _ =>
    if isAsciiSpace c then 1
    else
      match wideSpaces.find? (fun w => startsWith s w) with
      | some w => w.length
      | none => 0

/-- Number of trailing bytes of the string whose reversal is `r` that make up one
white-space rune. -/
def trailingSpace (r : Str) : Nat :=
  match r with
  | [] => 0
  | c :: _ =>
    if isAsciiSpace c then 1
    else
      match wideSpaces.find? (fun w => startsWith r w.reverse) with
      | some w => w.length
      | none => 0

/-- Go's `strings.TrimLeftFunc(s, unicode.IsSpace)`; `skip` counts the bytes still to
drop of the white-space rune being removed. -/
def trimLeft : Nat → Str → Str
  | _, [] => []
  | skip + 1, _ :: s => trimLeft skip s
  | 0, c :: s =>
    if leadingSpace (c :: s) = 0 then c :: s else trimLeft (leadingSpace (c :: s) - 1) s

/-- Go's `strings.TrimRightFunc(s, unicode.IsSpace)`, working on the reversed string. -/
def trimRightRev : Nat → Str → Str
  | _, [] => []
  | skip + 1, _ :: r => trimRightRev skip r
  | 0, c :: r =>
    if trailingSpace (c :: r) = 0 then c :: r else trimRightRev (trailingSpace (c :: r) - 1) r

/-- Go's `strings.TrimSpace`. -/
def TrimSpace (s : Str) : Str :=
  (trimRightRev 0 (trimLeft 0 s).reverse).reverse

/-- Go's comparison `a <= b` of strings: bytewise lexicographic. -/
def strLe : Str → Str → Bool
  | [], _ => true
  | _ :: _, [] => false
  | a :: s, b :: t => if a < b then true else if a = b then strLe s t else false

/-- The order used by `slices.Sort` on strings. -/
def StrLE (a b : Str) : Prop := strLe a b = true

instance : DecidableRel StrLE := fun a b => inferInstanceAs (Decidable (strLe a b = true))

/-- Go's `slices.Sort` / `sort.Strings` on a slice of strings. -/
def sortStrings (l : List Str) : List Str := List.insertionSort StrLE l

/-! ## Go maps with string keys -/

/-- Lookup `m[k]` in a map kept as a list of bindings with distinct keys. -/
def mapGet {V : Type} : List (Str × V) → Str → Option V
  | [], _ => none
  | (k', v) :: rest, k => if k' = k then some v else mapGet rest k

/-- Assignment `m[k] = v`. -/
def mapPut {V : Type} : List (Str × V) → Str → V → List (Str × V)
  | [], k, v => [(k, v)]
  | (k', v') :: rest, k, v => if k' = k then (k, v) :: rest else (k', v') :: mapPut rest k v

/-- The keys of a map. -/
def mapKeys {V : Type} (m : List (Str × V)) : List Str := m.map Prod.fst

/-! ## net/url -/

/-- Go's `ishex` of `net/url`. -/
def ishex (c : Byte) : Bool :=
  (decide (ch '0' ≤ c) && decide (c ≤ ch '9')) ||
  (decide (ch 'a' ≤ c) && decide (c ≤ ch 'f')) ||
  (decide (ch 'A' ≤ c) && decide (c ≤ ch 'F'))

/-- Go's `unhex` of `net/url`. -/
def unhex (c : Byte) : Byte :=
  if ch '0' ≤ c ∧ c ≤ ch '9' then c - ch '0'
  else if ch 'a' ≤ c ∧ c ≤ ch 'f' then c - ch 'a' + 10
  else if ch 'A' ≤ c ∧ c ≤ ch 'F' then c - ch 'A' + 10
  else 0

/-- The table lookup `upperhex[n]` of `net/url`, with `upperhex = "0123456789ABCDEF"`. -/
def upperhex (n : Byte) : Byte := (ascii "0123456789ABCDEF").getD n.val 0

/-- The two escaping modes of `net/url` that `processURL` reaches. -/
inductive encoding where
  | encodeQueryComponent
  | encodeFragment
deriving DecidableEq

/-- Whether `c` is an ASCII letter or digit. -/
def isAlnum (c : Byte) : Bool :=
  (decide (ch 'a' ≤ c) && decide (c ≤ ch 'z')) ||
  (decide (ch 'A' ≤ c) && decide (c ≤ ch 'Z')) ||
  (decide (ch '0' ≤ c) && decide (c ≤ ch '9'))

/-- Go's `shouldEscape(c, mode)` for the modes `encodeQueryComponent` and
`encodeFragment`. -/
def shouldEscape (c : Byte) (mode : encoding) : Bool :=
  if isAlnum c then false
  else if c = ch '-' ∨ c = ch '_' ∨ c = ch '.' ∨ c = ch '~' then false
  else if c = ch '$' ∨ c = ch '&' ∨ c = ch '+' ∨ c = ch ',' ∨ c = ch '/' ∨ c = ch ':' ∨
      c = ch ';' ∨ c = ch '=' ∨ c = ch '?' ∨ c = ch '@' then
    (match mode with
     | .encodeQueryComponent => true
     | .encodeFragment => false)
  else if mode = .encodeFragment ∧ (c = ch '!' ∨ c = ch '(' ∨ c = ch ')' ∨ c = ch '*') then false
  else true

deriving instance DecidableEq for Except

/-- Go's `unescape(s, mode)`: percent-decoding, with `+` read as a space in a query
component.  The error carries the offending escape (at most three bytes), like
`EscapeError`. -/
def unescape (mode : encoding) : Str → Except Str Str
  | [] => .ok []
  | c :: s =>
    if c = ch '%' then
      match s with
      | a :: b :: rest =>
        if ishex a && ishex b then
          match unescape mode rest with
          | .ok t => .ok ((unhex a * 16 + unhex b) :: t)
          | .error e => .error e
        else .error [c, a, b]
      | _ => .error (c :: s)
    else
      match unescape mode s with
      | .ok t => .ok ((if c = ch '+' ∧ mode = .encodeQueryComponent then ch ' ' else c) :: t)
      | .error e => .error e

/-- Go's `url.QueryUnescape`. -/
def QueryUnescape (s : Str) : Except Str Str := unescape .encodeQueryComponent s

/-- The bytes `escape(s, encodeQueryComponent)` writes for one input byte. -/
def escapeByte (c : Byte) : Str :=
  if shouldEscape c .encodeQueryComponent then
    if c = ch ' ' then [ch '+'] else [ch '%', upperhex (c / 16), upperhex (c % 16)]
  else [c]

/-- Go's `url.QueryEscape`. -/
def QueryEscape : Str → Str
  | [] => []
  | c :: s => escapeByte c ++ QueryEscape s

/-- Go's `url.Values`, a `map[string][]string`. -/
abbrev Values := List (Str × List Str)

/-- The slice `v[key]` (nil when the key is absent). -/
def Values.values (v : Values) (key : Str) : List Str := (mapGet v key).getD []

/-- Go's `Values.Get`: the first value of the key, or the empty string. -/
def Values.Get (v : Values) (key : Str) : Str :=
  match Values.values v key with
  | [] => []
  | x :: _ => x

/-- Go's `Values.Set`: the key gets the single value. -/
def Values.Set (v : Values) (key value : Str) : Values := mapPut v key [value]

/-- Go's `Values.Add`: the value is appended to those of the key. -/
def Values.Add (v : Values) (key value : Str) : Values :=
  mapPut v key (Values.values v key ++ [value])

/-- One `key=value` pair written to the buffer of `Values.Encode`. -/
def encodePair (keyEscaped : Str) (buf : Str) (v : Str) : Str :=
  (if buf.length > 0 then buf ++ [ch '&'] else buf) ++ keyEscaped ++ [ch '='] ++ QueryEscape v

/-- Go's `Values.Encode`: the pairs in the order of the sorted keys. -/
def Values.Encode (v : Values) : Str :=
  if v.length = 0 then []
  else
    (sortStrings (mapKeys v)).foldl
      (fun buf k => (Values.values v k).foldl (encodePair (QueryEscape k)) buf) []

/-- One turn of the loop of Go's `parseQuery` on the pair `key`; a pair with a semicolon,
an empty pair and a pair with a malformed escape leave the map as it is. -/
def parsePair (m : Values) (key : Str) : Values :=
  if Contains key [ch ';'] then m
  else if key = [] then m
  else
    match QueryUnescape (Cut (ch '=') key).1 with
    | .error _ => m
    | .ok k =>
      match QueryUnescape (Cut (ch '=') key).2.1 with
      | .error _ => m
      | .ok value => Values.Add m k value

/-- Go's `url.ParseQuery` without its error result (`URL.Query` drops it): the loop
`for query != ""` cuts the query at each `&`. -/
def ParseQuery (query : Str) : Values := (Split (ch '&') query).foldl parsePair []

/-- Go's `url.URL`.  `Base` stands for scheme, authority and path together, kept as
written; `Fragment` is kept as written as well. -/
structure URL where
  Base : Str
  ForceQuery : Bool
  RawQuery : Str
  Fragment : Str
deriving DecidableEq

/-- Go's `URL.Query`. -/
def URL.Query (u : URL) : Values := ParseQuery u.RawQuery

/-- Go's `URL.String`. -/
def URL.String (u : URL) : Str :=
  u.Base ++ (if u.ForceQuery ∨ u.RawQuery ≠ [] then ch '?' :: u.RawQuery else []) ++
    (if u.Fragment ≠ [] then ch '#' :: u.Fragment else [])

/-- Go's `stringContainsCTLByte`. -/
def stringContainsCTLByte (s : Str) : Bool := s.any (fun b => decide (b < 32) || decide (b = 0x7f))

/-- Go's `url.Parse`, as far as the query and the fragment go: the fragment is cut off at
the first `#`, control bytes are refused, the query is cut off at the first `?` (a lone
trailing `?` sets `ForceQuery`), the fragment must unescape.  Scheme, authority and path
are not taken apart and not checked. -/
def Parse (rawURL : Str) : Option URL :=
  if stringContainsCTLByte (Cut (ch '#') rawURL).1 then none
  else
    match unescape .encodeFragment (Cut (ch '#') rawURL).2.1 with
    | .error _ => none
    | .ok _ =>
      if (Cut (ch '#') rawURL).1.getLast? = some (ch '?') ∧
          (Cut (ch '#') rawURL).1.count (ch '?') = 1 then
        some ⟨(Cut (ch '#') rawURL).1.dropLast, true, [], (Cut (ch '#') rawURL).2.1⟩
      else
        some ⟨(Cut (ch '?') (Cut (ch '#') rawURL).1).1, false,
          (Cut (ch '?') (Cut (ch '#') rawURL).1).2.1, (Cut (ch '#') rawURL).2.1⟩

/-! ## net/http: header keys, headers, requests -/

/-- Go's `validHeaderFieldByte` (the token bytes of RFC 7230). -/
def validHeaderFieldByte (c : Byte) : Bool :=
  isAlnum c || (ascii "!#$%&*+-.^_|~").contains c || decide (c = 0x27) || decide (c = 0x60)

/-- One byte of the rewriting loop of Go's `canonicalMIMEHeaderKey`: upper case when
`upper` is set, lower case otherwise. -/
def canonicalByte (upper : Bool) (c : Byte) : Byte :=
  if upper = true ∧ ch 'a' ≤ c ∧ c ≤ ch 'z' then c - 32
  else if upper = false ∧ ch 'A' ≤ c ∧ c ≤ ch 'Z' then c + 32
  else c

/-- The rewriting loop of Go's `canonicalMIMEHeaderKey`: upper case at the start and after
each dash, lower case elsewhere. -/
def canonicalLoop : Bool → Str → Str
  | _, [] => []
  | upper, c :: a => canonicalByte upper c :: canonicalLoop (decide (canonicalByte upper c = ch '-')) a

/-- Go's `textproto.CanonicalMIMEHeaderKey`: a key with a byte that is not a token byte
is returned unchanged, every other key is canonicalized. -/
def CanonicalMIMEHeaderKey (s : Str) : Str :=
  if s.all validHeaderFieldByte then canonicalLoop true s else s

/-- Go's `http.Header`, a `map[string][]string`. -/
abbrev Header := List (Str × List Str)

/-- Go's `Header.Add`. -/
def Header.Add (h : Header) (key value : Str) : Header :=
  mapPut h (CanonicalMIMEHeaderKey key)
    ((mapGet h (CanonicalMIMEHeaderKey key)).getD [] ++ [value])

/-- Go's `Header.Set`. -/
def Header.Set (h : Header) (key value : Str) : Header :=
  mapPut h (CanonicalMIMEHeaderKey key) [value]

/-- Go's `Header.Values`. -/
def Header.Values (h : Header) (key : Str) : List Str :=
  (mapGet h (CanonicalMIMEHeaderKey key)).getD []

/-- The fields of Go's `http.Request` that `processURL` decides. -/
structure Request where
  Method : Str
  URL : URL
  Header : Header
  Body : Option Str
deriving DecidableEq

/-- Go's `validMethod`. -/
def validMethod (method : Str) : Bool := decide (method.length > 0) && method.all validHeaderFieldByte

/-- Go's `http.NewRequest`: the method must be a token, the target is parsed again. -/
def NewRequest (method url : Str) (body : Option Str) : Option Request :=
  if validMethod (if method = [] then ascii "GET" else method) then
    match Parse url with
    | none => none
    | some u => some ⟨if method = [] then ascii "GET" else method, u, [], body⟩
  else none

/-! ## encoding/json: marshalling a `map[string]string` -/

/-- Go's `utf8.RuneError`. -/
def RuneError : Nat := 0xFFFD

/-- Go's `utf8.DecodeRuneInString`: the first rune of `s` and its width in bytes.  The
tables `first` and `acceptRanges` are written out as comparisons. -/
def DecodeRuneInString (s : Str) : Nat × Nat :=
  match s with
  | [] => (RuneError, 0)
  | s0 :: t =>
    if s0.val < 0x80 then (s0.val, 1)
    else if s0.val < 0xC2 ∨ 0xF4 < s0.val then (RuneError, 1)
    else
      match t with
      | [] => (RuneError, 1)
      | s1 :: t1 =>
        if s1.val < (if s0.val = 0xE0 then 0xA0 else if s0.val = 0xF0 then 0x90 else 0x80) ∨
            (if s0.val = 0xED then 0x9F else if s0.val = 0xF4 then 0x8F else 0xBF) < s1.val then
          (RuneError, 1)
        else if s0.val < 0xE0 then ((s0.val % 32) * 64 + s1.val % 64, 2)
        else
          match t1 with
          | [] => (RuneError, 1)
          | s2 :: t2 =>
            if s2.val < 0x80 ∨ 0xBF < s2.val then (RuneError, 1)
            else if s0.val < 0xF0 then
              ((s0.val % 16) * 4096 + (s1.val % 64) * 64 + s2.val % 64, 3)
            else
              match t2 with
              | [] => (RuneError, 1)
              | s3 :: _ =>
                if s3.val < 0x80 ∨ 0xBF < s3.val then (RuneError, 1)
                else
                  ((s0.val % 8) * 262144 + (s1.val % 64) * 4096 + (s2.val % 64) * 64 +
                    s3.val % 64, 4)

/-- The table lookup `hex[n]` of `encoding/json`, with `hex = "0123456789abcdef"`. -/
def lowerhex (n : Nat) : Byte := (ascii "0123456789abcdef").getD n 0

/-- What `appendString` with `escapeHTML` writes for one ASCII byte. -/
def jsonAsciiByte (b : Byte) : Str :=
  if 0x20 ≤ b ∧ b ≠ 0x22 ∧ b ≠ 0x5C ∧ b ≠ ch '<' ∧ b ≠ ch '>' ∧ b ≠ ch '&' then [b]
  else if b = 0x5C ∨ b = 0x22 then [0x5C, b]
  else if b = 8 then [0x5C, ch 'b']
  else if b = 12 then [0x5C, ch 'f']
  else if b = 10 then [0x5C, ch 'n']
  else if b = 13 then [0x5C, ch 'r']
  else if b = 9 then [0x5C, ch 't']
  else [0x5C, ch 'u', ch '0', ch '0', lowerhex (b.val / 16), lowerhex (b.val % 16)]

/-- The loop of Go's `appendString(dst, src, true)`.  `pending` counts the bytes left of
the multi-byte rune being passed over, `copy` says whether they are written through. -/
def appendStringLoop : Nat → Bool → Str → Str
  | _, _, [] => []
  | pending + 1, copy, c :: s => (if copy then [c] else []) ++ appendStringLoop pending copy s
  | 0, _, c :: s =>
    if c.val < 0x80 then jsonAsciiByte c ++ appendStringLoop 0 true s
    else if (DecodeRuneInString (c :: s)).1 = RuneError ∧ (DecodeRuneInString (c :: s)).2 = 1 then
      ascii "\\ufffd" ++ appendStringLoop 0 true s
    else if (DecodeRuneInString (c :: s)).1 = 0x2028 ∨ (DecodeRuneInString (c :: s)).1 = 0x2029 then
      ascii "\\u202" ++ [lowerhex ((DecodeRuneInString (c :: s)).1 % 16)] ++
        appendStringLoop ((DecodeRuneInString (c :: s)).2 - 1) false s
    else c :: appendStringLoop ((DecodeRuneInString (c :: s)).2 - 1) true s

/-- Go's `appendString(nil, src, true)`: the JSON string literal for `src`. -/
def appendString (src : Str) : Str := 0x22 :: (appendStringLoop 0 true src ++ [0x22])

/-- One member `"key":"value"` of a JSON object. -/
def jsonMember (k v : Str) : Str := appendString k ++ [ch ':'] ++ appendString v

/-- A JSON object with the given members, in the given order. -/
def jsonObject (members : List (Str × Str)) : Str :=
  ch (Char.ofNat 0x7b) ::
    ([ch ','].intercalate (members.map (fun kv => jsonMember kv.1 kv.2)) ++ [ch (Char.ofNat 0x7d)])

/-- Go's `json.Marshal` of a `map[string]string`: the members in the order of the sorted
keys. -/
def Marshal (m : List (Str × Str)) : Str :=
  jsonObject ((sortStrings (mapKeys m)).map (fun k => (k, (mapGet m k).getD [])))

/-! ## rxss.go -/

/-- The constant `defaultPayload`. -/
def defaultPayload : Str := [0x27, 0x22] ++ ascii "%00><h1>akira</h1>"

/-- What `client.Do` followed by `io.Copy` gives for a request: the round trip fails,
reading the body fails, or the body is buffered. -/
inductive Response where
  | failed
  | unreadable
  | body (buf : Str)
deriving DecidableEq

/-- The two things `processURL` takes from its environment: the order in which
`for key := range queryValues` yields the keys of the map, and the HTTP round trip. -/
structure Runtime where
  rangeKeys : List Str → List Str
  send : Request → Response

/-- The lines `processURL` prints, one constructor per format string, with the
arguments of the format. -/
inductive Event where
  | parseError (u : Str)
  | noQueryParameters (u : Str)
  | xmlNotImplemented
  | requestError (method url : Str)
  | sendError (method url : Str)
  | readError (url : Str)
  | decodeError (value err : Str)
  | reflected (key decodedValue url payload : Str)
  | notFound (key decodedValue url : Str)
deriving DecidableEq

/-- The query key a finding line is about. -/
def Event.key : Event → Option Str
  | .reflected key _ _ _ => some key
  | .notFound key _ _ => some key
  | _ => none

/-- What one call of `processURL` leaves behind: the printed lines, the strings written
to the output file, the request handed to `client.Do` and the buffered response body. -/
structure Outcome where
  stdout : List Event
  file : List Str
  sent : Option Request
  response : Option Str
deriving DecidableEq

/-- The variables the final loop of `processURL` reads and writes. -/
structure ScanState where
  queryValues : Values
  parsedURL : URL
  stdout : List Event
  file : List Str
deriving DecidableEq

/-- The JSON branch: `jsonParams[key] = queryValues.Get(key)` for every key, marshalled. -/
def jsonBody (queryValues : Values) (queryKeys : List Str) : Str :=
  Marshal (queryKeys.foldl (fun jsonParams key => mapPut jsonParams key (Values.Get queryValues key)) [])

/-- The default branch: `bodyParams.Add(key, queryValues.Get(key))` for every key,
encoded. -/
def formBody (queryValues : Values) (queryKeys : List Str) : Str :=
  Values.Encode
    (queryKeys.foldl (fun bodyParams key => Values.Add bodyParams key (Values.Get queryValues key)) [])

/-- Lines 105-129: the request body and the content type header for a POST or PATCH
request; `none` is the return of the XML branch. -/
def encodeBody (contentType : Str) (queryValues : Values) (queryKeys : List Str) :
    Option (Option Str × Str) :=
  if contentType = ascii "json" then
    some (some (jsonBody queryValues queryKeys), ascii "application/json")
  else if contentType = ascii "xml" then none
  else some (some (formBody queryValues queryKeys), ascii "application/x-www-form-urlencoded")

/-- Lines 141-146: one entry of the header list. -/
def addCustomHeader (h : Header) (header : Str) : Header :=
  match SplitN2 (ch ':') header with
  | [name, value] => Header.Add h (TrimSpace name) (TrimSpace value)
  | _ => h

/-- Lines 139-147: the custom headers are added to the request. -/
def addCustomHeaders (headers : Str) (h : Header) : Header :=
  if headers ≠ [] then (Split (ch ',') headers).foldl addCustomHeader h else h

/-- Lines 167-195: the body of the loop over the query keys. -/
def scanKey (buf customPayload : Str) (outputFile : Bool) (st : ScanState) (key : Str) :
    ScanState :=
  match QueryUnescape (Values.Get st.queryValues key) with
  | .error err =>
    { st with stdout := st.stdout ++ [.decodeError (Values.Get st.queryValues key) err] }
  | .ok decodedValue =>
    if Contains buf decodedValue then
      { queryValues := Values.Set st.queryValues key (decodedValue ++ customPayload)
        parsedURL :=
          { st.parsedURL with
            RawQuery := Values.Encode (Values.Set st.queryValues key (decodedValue ++ customPayload)) }
        stdout := st.stdout ++
          [.reflected key decodedValue
            (URL.String { st.parsedURL with
              RawQuery := Values.Encode (Values.Set st.queryValues key (decodedValue ++ customPayload)) })
            customPayload]
        file :=
          if outputFile then
            st.file ++
              [URL.String { st.parsedURL with
                RawQuery := Values.Encode (Values.Set st.queryValues key (decodedValue ++ customPayload)) }
                ++ [ch '\n']]
          else st.file }
    else
      { st with stdout := st.stdout ++ [.notFound key decodedValue (URL.String st.parsedURL)] }

/-- Whether the method carries a body (line 99). -/
def bodyMethod (method : Str) : Bool :=
  decide (method = ascii "POST") || decide (method = ascii "PATCH")

/-- Line 99-103: the query is removed from the target of a POST or PATCH request unless
`keep` is set. -/
def targetURL (parsedURL : URL) (method : Str) (keep : Bool) : URL :=
  if bodyMethod method ∧ keep = false then { parsedURL with RawQuery := [] } else parsedURL

/-- Lines 138-152: custom headers first, then the content type header. -/
def withHeaders (req : Request) (headers contentTypeHeader : Str) : Request :=
  if contentTypeHeader ≠ [] then
    { req with
      Header := Header.Set (addCustomHeaders headers req.Header) (ascii "Content-Type")
        contentTypeHeader }
  else { req with Header := addCustomHeaders headers req.Header }

/-- The function `processURL`.  `outputFile` says whether an output file is open
(`outputFile != nil`); writes to it succeed. -/
def processURL (rt : Runtime) (u : Str) (outputFile : Bool) (method : Str) (keep : Bool)
    (headers customPayload contentType : Str) : Outcome :=
  match Parse u with
  | none => ⟨[.parseError u], [], none, none⟩
  | some parsedURL =>
    if (rt.rangeKeys (mapKeys parsedURL.Query)).length = 0 then
      ⟨[.noQueryParameters u], [], none, none⟩
    else
      match (if bodyMethod method then
          encodeBody contentType parsedURL.Query (rt.rangeKeys (mapKeys parsedURL.Query))
        else some (none, [])) with
      | none => ⟨[.xmlNotImplemented], [], none, none⟩
      | some (requestBody, contentTypeHeader) =>
        match NewRequest method (URL.String (targetURL parsedURL method keep)) requestBody with
        | none =>
          ⟨[.requestError method (URL.String (targetURL parsedURL method keep))], [], none, none⟩
        | some req =>
          match rt.send (withHeaders req headers contentTypeHeader) with
          | .failed =>
            ⟨[.sendError method (URL.String (targetURL parsedURL method keep))], [],
              some (withHeaders req headers contentTypeHeader), none⟩
          | .unreadable =>
            ⟨[.readError (URL.String (targetURL parsedURL method keep))], [],
              some (withHeaders req headers contentTypeHeader), none⟩
          | .body buf =>
            ⟨((rt.rangeKeys (mapKeys parsedURL.Query)).foldl
                (scanKey buf customPayload outputFile)
                ⟨parsedURL.Query, targetURL parsedURL method keep, [], []⟩).stdout,
             ((rt.rangeKeys (mapKeys parsedURL.Query)).foldl
                (scanKey buf customPayload outputFile)
                ⟨parsedURL.Query, targetURL parsedURL method keep, [], []⟩).file,
             some (withHeaders req headers contentTypeHeader), some buf⟩

/-! ## Vocabulary of the theorems -/

/-- The finding lines about one query key. -/
def findingsFor (key : Str) (events : List Event) : List Event :=
  events.filter (fun e => decide (e.key = some key))

/-- A runtime whose `range` yields the keys in the order of their first occurrence in
the query and whose server answers every request with `body`. -/
def forwardRuntime (body : Str) : Runtime := ⟨id, fun _ => .body body⟩

/-- A runtime whose `range` yields the keys in the opposite order and whose server
answers every request with `body`. -/
def backwardRuntime (body : Str) : Runtime := ⟨List.reverse, fun _ => .body body⟩

/-- The bytes `QueryEscape` can write: letters, digits and `-_.~%+`. -/
def queryByte (c : Byte) : Bool :=
  isAlnum c || decide (c = ch '-') || decide (c = ch '_') || decide (c = ch '.') ||
    decide (c = ch '~') || decide (c = ch '%') || decide (c = ch '+')

/-- The `key=value` pairs of a `Values` map in the order `Values.Encode` writes them. -/
def Values.pairs (v : Values) : List (Str × Str) :=
  (sortStrings (mapKeys v)).flatMap (fun k => (Values.values v k).map (fun x => (k, x)))

/-- The text `Values.Encode` writes for one pair. -/
def encodedPair (kv : Str × Str) : Str := QueryEscape kv.1 ++ [ch '='] ++ QueryEscape kv.2

/-- The segments joined with `&`. -/
def joinAmp : List Str → Str
  | [] => []
  | x :: xs => x ++ xs.flatMap (fun y => ch '&' :: y)

/-- What the loop keeps true of the "reflected" lines printed so far: the URL in the line
parses, and its query gives the key the decoded value followed by the payload. -/
def roundTrips (p : Str) (events : List Event) : Prop :=
  ∀ key d url p2, Event.reflected key d url p2 ∈ events →
    p2 = p ∧ ∃ pu, Parse url = some pu ∧ Values.Get pu.Query key = d ++ p

/-- ASCII lower case of a byte. -/
def lowerByte (c : Byte) : Byte := if ch 'A' ≤ c ∧ c ≤ ch 'Z' then c + 32 else c

/-- The entries of the custom header string: the comma-separated pieces that hold a
colon, cut at the first colon, name and value trimmed. -/
def customHeaderEntries (headers : Str) : List (Str × Str) :=
  (Split (ch ',') headers).filterMap (fun header =>
    if (Cut (ch ':') header).2.2 then
      some (TrimSpace (Cut (ch ':') header).1, TrimSpace (Cut (ch ':') header).2.1)
    else none)

/-- Every key of the header map is a canonical key. -/
def canonicalKeys (h : Header) : Prop := ∀ k ∈ mapKeys h, ∃ s, k = CanonicalMIMEHeaderKey s

/-! ## Reading JSON text back -/

/-- Go's `utf8.ValidString`, as a loop: `pending` counts the bytes left of the rune being
passed over. -/
def validLoop : Nat → Str → Bool
  | _, [] => true
  | pending + 1, _ :: s => validLoop pending s
  | 0, c :: s =>
    if c.val < 0x80 then validLoop 0 s
    else if (DecodeRuneInString (c :: s)).1 = RuneError ∧ (DecodeRuneInString (c :: s)).2 = 1 then
      false
    else validLoop ((DecodeRuneInString (c :: s)).2 - 1) s

/-- Go's `utf8.ValidString`: the bytes are well-formed UTF-8. -/
def ValidString (s : Str) : Bool := validLoop 0 s

/-- The string with every byte that does not belong to a well-formed rune replaced by the
three bytes of U+FFFD; `pending` counts the bytes left of the rune being passed over. -/
def replaceInvalidLoop : Nat → Str → Str
  | _, [] => []
  | pending + 1, c :: s => c :: replaceInvalidLoop pending s
  | 0, c :: s =>
    if c.val < 0x80 then c :: replaceInvalidLoop 0 s
    else if (DecodeRuneInString (c :: s)).1 = RuneError ∧ (DecodeRuneInString (c :: s)).2 = 1 then
      [0xEF, 0xBF, 0xBD] ++ replaceInvalidLoop 0 s
    else c :: replaceInvalidLoop ((DecodeRuneInString (c :: s)).2 - 1) s

/-- The string with every byte that does not belong to a well-formed rune replaced by
U+FFFD. -/
def replaceInvalid (s : Str) : Str := replaceInvalidLoop 0 s

/-- The byte with the given value. -/
def byteOf (n : Nat) : Byte := ⟨n % 256, Nat.mod_lt _ (by decide)⟩

/-- The UTF-8 encoding of a code point below U+10000. -/
def encodeRune (r : Nat) : Str :=
  if r < 0x80 then [byteOf r]
  else if r < 0x800 then [byteOf (0xC0 + r / 64), byteOf (0x80 + r % 64)]
  else [byteOf (0xE0 + r / 4096), byteOf (0x80 + r / 64 % 64), byteOf (0x80 + r % 64)]

/-- The value of a hexadecimal digit. -/
def hexDigit (c : Byte) : Option Nat :=
  if ch '0' ≤ c ∧ c ≤ ch '9' then some (c.val - 48)
  else if ch 'a' ≤ c ∧ c ≤ ch 'f' then some (c.val - 87)
  else if ch 'A' ≤ c ∧ c ≤ ch 'F' then some (c.val - 55)
  else none

/-- The value of four hexadecimal digits. -/
def hex4 (a b c d : Byte) : Option Nat :=
  match hexDigit a, hexDigit b, hexDigit c, hexDigit d with
  | some x, some y, some z, some w => some (x * 4096 + y * 256 + z * 16 + w)
  | _, _, _, _ => none

/-- The byte a two-character escape of a JSON string stands for (RFC 8259, section 7). -/
def jsonEscape (e : Byte) : Option Byte :=
  if e = 0x22 then some 0x22
  else if e = 0x5C then some 0x5C
  else if e = ch '/' then some (ch '/')
  else if e = ch 'b' then some 8
  else if e = ch 'f' then some 12
  else if e = ch 'n' then some 10
  else if e = ch 'r' then some 13
  else if e = ch 't' then some 9
  else none

/-- Reads the characters of a JSON string up to its closing quote (RFC 8259, section 7):
the text the string stands for, and the input after the quote.  Control bytes must be
escaped; a `\u` escape gives the UTF-8 bytes of its code point, surrogates are not read. -/
def jsonChars : Str → Option (Str × Str)
  | [] => none
  | c :: s =>
    if c = 0x22 then some ([], s)
    else if c = 0x5C then
      match s with
      | [] => none
      | e :: s1 =>
        if e = ch 'u' then
          match s1 with
          | h1 :: h2 :: h3 :: h4 :: s2 =>
            match hex4 h1 h2 h3 h4 with
            | none => none
            | some r =>
              if 0xD800 ≤ r ∧ r < 0xE000 then none
              else
                match jsonChars s2 with
                | none => none
                | some tr => some (encodeRune r ++ tr.1, tr.2)
          | _ => none
        else
          match jsonEscape e with
          | none => none
          | some b =>
            match jsonChars s1 with
            | none => none
            | some tr => some (b :: tr.1, tr.2)
    else if c < 0x20 then none
    else
      match jsonChars s with
      | none => none
      | some tr => some (c :: tr.1, tr.2)

/-- Reads a JSON string at the head of the input. -/
def jsonString (s : Str) : Option (Str × Str) :=
  match s with
  | [] => none
  | c :: t => if c = 0x22 then jsonChars t else none

/-- Reads the members of a JSON object in compact form, after the opening brace or a
comma, up to the closing brace, which must end the input.  `fuel` bounds the number of
members. -/
def jsonMembers : Nat → Str → Option (List (Str × Str))
  | 0, _ => none
  | fuel + 1, s =>
    match jsonString s with
    | none => none
    | some ks =>
      match ks.2 with
      | [] => none
      | c :: s2 =>
        if c = ch ':' then
          match jsonString s2 with
          | none => none
          | some vs =>
            match vs.2 with
            | [] => none
            | d :: s4 =>
              if d = ch (Char.ofNat 0x7d) ∧ s4 = [] then some [(ks.1, vs.1)]
              else if d = ch ',' then
                match jsonMembers fuel s4 with
                | none => none
                | some ms => some ((ks.1, vs.1) :: ms)
              else none
        else none

/-- Reads a JSON object in compact form whose members are all strings: the member names
and values in the order of the text. -/
def parseFlatObject (body : Str) : Option (List (Str × Str)) :=
  match body with
  | [] => none
  | o :: s =>
    if o = ch (Char.ofNat 0x7b) then
      if s = [ch (Char.ofNat 0x7d)] then some [] else jsonMembers s.length s
    else none

/-! # Theorems -/

/-! ## strings -/

theorem startsWith_iff (s p : Str) : startsWith s p = true ↔ ∃ t, s = p ++ t := by
  induction p generalizing s with
  | nil => simp [startsWith]
  | cons d p ih =>
    cases s with
    | nil => simp [startsWith]
    | cons c s =>
      simp only [startsWith, Bool.and_eq_true, decide_eq_true_eq, ih, List.cons_append,
        List.cons.injEq]
      constructor
      · rintro ⟨h, t, ht⟩
        exact ⟨t, h, ht⟩
      · rintro ⟨t, h, ht⟩
        exact ⟨h, t, ht⟩

theorem Contains_iff (s substr : Str) :
    Contains s substr = true ↔ ∃ a b, s = a ++ substr ++ b := by
  induction s with
  | nil =>
    simp only [Contains, startsWith_iff]
    constructor
    · rintro ⟨t, ht⟩
      exact ⟨[], t, by simpa using ht⟩
    · rintro ⟨a, b, h⟩
      have h1 : a ++ substr ++ b = [] := h.symm
      simp only [List.append_eq_nil] at h1
      exact ⟨[], by simp [h1.1.2]⟩
  | cons c s ih =>
    simp only [Contains, Bool.or_eq_true, startsWith_iff, ih]
    constructor
    · rintro (⟨t, ht⟩ | ⟨a, b, h⟩)
      · exact ⟨[], t, by simpa using ht⟩
      · exact ⟨c :: a, b, by simp [h]⟩
    · rintro ⟨a, b, h⟩
      cases a with
      | nil => exact Or.inl ⟨b, by simpa using h⟩
      | cons x a =>
        simp only [List.cons_append, List.cons.injEq] at h
        exact Or.inr ⟨a, b, h.2⟩

theorem Contains_nil (s : Str) : Contains s [] = true :=
  (Contains_iff s []).2 ⟨[], s, rfl⟩

/-! ## maps -/

theorem mapGet_mapPut_self {V : Type} (m : List (Str × V)) (k : Str) (v : V) :
    mapGet (mapPut m k v) k = some v := by
  induction m with
  | nil => simp [mapPut, mapGet]
  | cons e m ih =>
    obtain ⟨k', v'⟩ := e
    by_cases h : k' = k
    · simp [mapPut, mapGet, h]
    · simp [mapPut, mapGet, h, ih]

theorem mapGet_mapPut_of_ne {V : Type} (m : List (Str × V)) (k k2 : Str) (v : V)
    (hne : k2 ≠ k) : mapGet (mapPut m k v) k2 = mapGet m k2 := by
  induction m with
  | nil =>
    have : ¬ k = k2 := fun h => hne h.symm
    simp [mapPut, mapGet, this]
  | cons e m ih =>
    obtain ⟨k', v'⟩ := e
    by_cases h : k' = k
    · have h2 : ¬ k = k2 := fun h => hne h.symm
      subst h
      simp [mapPut, mapGet, h2]
    · by_cases h3 : k' = k2
      · subst h3
        simp [mapPut, mapGet, h]
      · simp [mapPut, mapGet, h, h3, ih]

theorem Values_Get_Set_self (v : Values) (k x : Str) : Values.Get (Values.Set v k x) k = x := by
  simp [Values.Get, Values.Set, Values.values, mapGet_mapPut_self]

theorem Values_Get_Set_of_ne (v : Values) (k k2 x : Str) (hne : k2 ≠ k) :
    Values.Get (Values.Set v k x) k2 = Values.Get v k2 := by
  simp [Values.Get, Values.Set, Values.values, mapGet_mapPut_of_ne _ _ _ _ hne]

/-! ## more on maps -/

theorem mapKeys_mapPut {V : Type} (m : List (Str × V)) (k : Str) (v : V) :
    mapKeys (mapPut m k v) = if k ∈ mapKeys m then mapKeys m else mapKeys m ++ [k] := by
  induction m with
  | nil => simp [mapPut, mapKeys]
  | cons e m ih =>
    obtain ⟨k', v'⟩ := e
    by_cases h : k' = k
    · subst h
      simp [mapPut, mapKeys]
    · have h2 : ¬ k = k' := fun h3 => h h3.symm
      simp only [mapKeys] at ih
      simp only [mapPut, h, if_false, mapKeys, List.map_cons, List.mem_cons, h2, false_or, ih]
      split <;> simp

theorem mapKeys_mapPut_nodup {V : Type} (m : List (Str × V)) (k : Str) (v : V)
    (h : (mapKeys m).Nodup) : (mapKeys (mapPut m k v)).Nodup := by
  rw [mapKeys_mapPut]
  split
  · exact h
  · rename_i hk
    exact List.nodup_append.2 ⟨h, List.nodup_singleton k, by
      intro a ha hb
      simp only [List.mem_singleton] at hb
      exact hk (hb ▸ ha)⟩

theorem mem_mapKeys_mapPut {V : Type} (m : List (Str × V)) (k k2 : Str) (v : V) :
    k2 ∈ mapKeys (mapPut m k v) ↔ k2 = k ∨ k2 ∈ mapKeys m := by
  rw [mapKeys_mapPut]
  split
  · rename_i hk
    constructor
    · exact Or.inr
    · rintro (h | h)
      · exact h ▸ hk
      · exact h
  · simp [or_comm]

theorem parsePair_nodup (m : Values) (seg : Str) (h : (mapKeys m).Nodup) :
    (mapKeys (parsePair m seg)).Nodup := by
  unfold parsePair
  split_ifs
  · exact h
  · exact h
  · split
    · exact h
    · split
      · exact h
      · exact mapKeys_mapPut_nodup _ _ _ h

theorem ParseQuery_nodup (query : Str) : (mapKeys (ParseQuery query)).Nodup := by
  unfold ParseQuery
  have : ∀ (l : List Str) (m : Values), (mapKeys m).Nodup → (mapKeys (l.foldl parsePair m)).Nodup := by
    intro l
    induction l with
    | nil => intro m h; exact h
    | cons s l ih => intro m h; exact ih _ (parsePair_nodup m s h)
  exact this _ _ (by simp [mapKeys])

/-- When a response body was buffered, the printed lines and the file lines are those of
the loop over the query keys. -/
theorem processURL_scan (rt : Runtime) (u : Str) (o : Bool) (method : Str) (keep : Bool)
    (headers p ct buf : Str) (pu : URL) (hp : Parse u = some pu)
    (h : (processURL rt u o method keep headers p ct).response = some buf) :
    (processURL rt u o method keep headers p ct).stdout =
      ((rt.rangeKeys (mapKeys pu.Query)).foldl (scanKey buf p o)
        ⟨pu.Query, targetURL pu method keep, [], []⟩).stdout ∧
    (processURL rt u o method keep headers p ct).file =
      ((rt.rangeKeys (mapKeys pu.Query)).foldl (scanKey buf p o)
        ⟨pu.Query, targetURL pu method keep, [], []⟩).file := by
  revert h
  unfold processURL
  rw [hp]
  dsimp only
  by_cases hlen : (rt.rangeKeys (mapKeys pu.Query)).length = 0
  · simp [hlen]
  · simp only [hlen, if_false]
    generalize (if bodyMethod method = true then
      encodeBody ct pu.Query (rt.rangeKeys (mapKeys pu.Query)) else some (none, [])) = eb
    cases eb with
    | none => simp
    | some rb =>
      obtain ⟨requestBody, cth⟩ := rb
      dsimp only
      generalize NewRequest method (targetURL pu method keep).String requestBody = nr
      cases nr with
      | none => simp
      | some req =>
        dsimp only
        generalize rt.send (withHeaders req headers cth) = resp
        cases resp with
        | failed => simp
        | unreadable => simp
        | body b =>
          intro h
          simp only [Option.some.injEq] at h
          subst h
          exact ⟨rfl, rfl⟩

/-! ## the scan loop -/

theorem scanKey_other (buf p : Str) (o : Bool) (st : ScanState) (key k : Str) (hne : key ≠ k) :
    Values.Get (scanKey buf p o st k).queryValues key = Values.Get st.queryValues key ∧
    findingsFor key (scanKey buf p o st k).stdout = findingsFor key st.stdout := by
  have hne2 : ¬ k = key := fun h => hne h.symm
  unfold scanKey
  split
  · simp [findingsFor, Event.key]
  · split
    · simp [findingsFor, Event.key, Values_Get_Set_of_ne _ _ _ _ hne, hne2]
    · simp [findingsFor, Event.key, hne2]

theorem scanKey_file_mono (buf p : Str) (o : Bool) (st : ScanState) (k x : Str)
    (hx : x ∈ st.file) : x ∈ (scanKey buf p o st k).file := by
  unfold scanKey
  split
  · exact hx
  · split
    · cases o <;> simp [hx]
    · exact hx

theorem scan_file_mono (buf p : Str) (o : Bool) (l : List Str) (st : ScanState) (x : Str)
    (hx : x ∈ st.file) : x ∈ (l.foldl (scanKey buf p o) st).file := by
  induction l generalizing st with
  | nil => exact hx
  | cons k l ih => exact ih _ (scanKey_file_mono buf p o st k x hx)

theorem scan_frame (buf p : Str) (o : Bool) (l : List Str) (st : ScanState) (key : Str)
    (hk : key ∉ l) :
    Values.Get (l.foldl (scanKey buf p o) st).queryValues key = Values.Get st.queryValues key ∧
    findingsFor key (l.foldl (scanKey buf p o) st).stdout = findingsFor key st.stdout := by
  induction l generalizing st with
  | nil => exact ⟨rfl, rfl⟩
  | cons k l ih =>
    have hne : key ≠ k := fun h => hk (by simp [h])
    have hl : key ∉ l := fun h => hk (by simp [h])
    have h1 := scanKey_other buf p o st key k hne
    have h2 := ih (scanKey buf p o st k) hl
    exact ⟨h2.1.trans h1.1, h2.2.trans h1.2⟩

/-- The finding the loop body prints for `key` when its value decodes to `d`. -/
theorem scanKey_self (buf p : Str) (o : Bool) (st : ScanState) (key d : Str)
    (hd : QueryUnescape (Values.Get st.queryValues key) = .ok d) :
    ∃ url, findingsFor key (scanKey buf p o st key).stdout =
        findingsFor key st.stdout ++
          [if Contains buf d then Event.reflected key d url p else Event.notFound key d url] ∧
      (Contains buf d = true → o = true → url ++ [ch '\n'] ∈ (scanKey buf p o st key).file) := by
  unfold scanKey
  rw [hd]
  by_cases hc : Contains buf d = true
  · refine ⟨URL.String { st.parsedURL with
      RawQuery := Values.Encode (Values.Set st.queryValues key (d ++ p)) }, ?_, ?_⟩
    · simp [hc, findingsFor, Event.key]
    · intro _ ho
      simp [hc, ho]
  · refine ⟨URL.String st.parsedURL, ?_, ?_⟩
    · simp [hc, findingsFor, Event.key]
    · intro h
      exact absurd h hc

theorem scan_finding (buf p : Str) (o : Bool) (l : List Str) (hl : l.Nodup) (st : ScanState)
    (key d : Str) (hk : key ∈ l)
    (hd : QueryUnescape (Values.Get st.queryValues key) = .ok d) :
    ∃ url, findingsFor key (l.foldl (scanKey buf p o) st).stdout =
        findingsFor key st.stdout ++
          [if Contains buf d then Event.reflected key d url p else Event.notFound key d url] ∧
      (Contains buf d = true → o = true →
        url ++ [ch '\n'] ∈ (l.foldl (scanKey buf p o) st).file) := by
  induction l generalizing st with
  | nil => simp at hk
  | cons k l ih =>
    rw [List.nodup_cons] at hl
    by_cases hkk : key = k
    · subst hkk
      obtain ⟨url, h1, h2⟩ := scanKey_self buf p o st key d hd
      have hf := scan_frame buf p o l (scanKey buf p o st key) key hl.1
      refine ⟨url, ?_, ?_⟩
      · rw [List.foldl_cons, hf.2, h1]
      · intro hc ho
        exact scan_file_mono buf p o l _ _ (h2 hc ho)
    · have hmem : key ∈ l := by
        rcases List.mem_cons.1 hk with h | h
        · exact absurd h hkk
        · exact h
      have ho := scanKey_other buf p o st key k hkk
      have hd2 : QueryUnescape (Values.Get (scanKey buf p o st k).queryValues key) = .ok d := by
        rw [ho.1]; exact hd
      obtain ⟨url, h1, h2⟩ := ih hl.2 (scanKey buf p o st k) hmem hd2
      refine ⟨url, ?_, h2⟩
      rw [List.foldl_cons, h1, ho.2]

/-! ## percent-encoding -/

theorem escapeByte_queryByte : ∀ c : Byte, (escapeByte c).all queryByte = true := by
  decide!

theorem queryByte_plain : ∀ c : Byte, queryByte c = true →
    c ≠ ch '&' ∧ c ≠ ch '=' ∧ c ≠ ch ';' ∧ c ≠ ch '#' ∧ c ≠ ch '?' ∧
      (decide (c < 32) || decide (c = 0x7f)) = false := by
  decide!

theorem escapeByte_ne_nil : ∀ c : Byte, escapeByte c ≠ [] := by
  decide!

theorem unescape_escapeByte_cases : ∀ c : Byte,
    (escapeByte c = [ch '+'] ∧ c = ch ' ') ∨
    (escapeByte c = [ch '%', upperhex (c / 16), upperhex (c % 16)] ∧
      (ishex (upperhex (c / 16)) && ishex (upperhex (c % 16))) = true ∧
      unhex (upperhex (c / 16)) * 16 + unhex (upperhex (c % 16)) = c) ∨
    (escapeByte c = [c] ∧ c ≠ ch '%' ∧ c ≠ ch '+') := by
  decide!

theorem unescape_cons_of_ne (mode : encoding) (c : Byte) (s : Str) (h : c ≠ ch '%') :
    unescape mode (c :: s) =
      match unescape mode s with
      | .ok t => .ok ((if c = ch '+' ∧ mode = .encodeQueryComponent then ch ' ' else c) :: t)
      | .error e => .error e := by
  conv => lhs; unfold unescape
  simp only [h, if_false]


theorem unescape_percent (mode : encoding) (a b : Byte) (rest : Str)
    (h : (ishex a && ishex b) = true) :
    unescape mode (ch '%' :: a :: b :: rest) =
      match unescape mode rest with
      | .ok t => .ok ((unhex a * 16 + unhex b) :: t)
      | .error e => .error e := by
  conv => lhs; unfold unescape
  simp only [h, if_true]

theorem unescape_escapeByte (c : Byte) (rest : Str) :
    unescape .encodeQueryComponent (escapeByte c ++ rest) =
      match unescape .encodeQueryComponent rest with
      | .ok t => .ok (c :: t)
      | .error e => .error e := by
  rcases unescape_escapeByte_cases c with ⟨h, hc⟩ | ⟨h, hh, hv⟩ | ⟨h, h1, h2⟩
  · rw [h, List.singleton_append, unescape_cons_of_ne _ _ _ (by decide), hc]
    simp
  · rw [h]
    show unescape .encodeQueryComponent (ch '%' :: upperhex (c / 16) :: upperhex (c % 16) :: rest) = _
    rw [unescape_percent _ _ _ _ hh, hv]
  · rw [h, List.singleton_append, unescape_cons_of_ne _ _ _ h1]
    simp [h2]

theorem QueryUnescape_QueryEscape (s : Str) : QueryUnescape (QueryEscape s) = .ok s := by
  unfold QueryUnescape
  induction s with
  | nil => simp [QueryEscape, unescape]
  | cons c s ih => rw [QueryEscape, unescape_escapeByte, ih]

theorem QueryEscape_queryByte (s : Str) : ∀ x ∈ QueryEscape s, queryByte x = true := by
  induction s with
  | nil => simp [QueryEscape]
  | cons c s ih =>
    intro x hx
    rw [QueryEscape, List.mem_append] at hx
    rcases hx with hx | hx
    · exact List.all_eq_true.1 (escapeByte_queryByte c) x hx
    · exact ih x hx

/-! ## cutting and splitting -/

theorem Cut_of_not_mem (sep : Byte) (s : Str) (h : sep ∉ s) : Cut sep s = (s, [], false) := by
  induction s with
  | nil => rfl
  | cons c s ih =>
    have hc : ¬ c = sep := fun e => h (by simp [e])
    have hs : sep ∉ s := fun e => h (by simp [e])
    simp [Cut, hc, ih hs]

theorem Cut_append (sep : Byte) (a b : Str) (h : sep ∉ a) :
    Cut sep (a ++ sep :: b) = (a, b, true) := by
  induction a with
  | nil => simp [Cut]
  | cons c a ih =>
    have hc : ¬ c = sep := fun e => h (by simp [e])
    have hs : sep ∉ a := fun e => h (by simp [e])
    simp [Cut, hc, ih hs]

theorem Split_of_not_mem (sep : Byte) (s : Str) (h : sep ∉ s) : Split sep s = [s] := by
  induction s with
  | nil => rfl
  | cons c s ih =>
    have hc : ¬ c = sep := fun e => h (by simp [e])
    have hs : sep ∉ s := fun e => h (by simp [e])
    simp [Split, hc, ih hs]

theorem Split_append (sep : Byte) (a b : Str) (h : sep ∉ a) :
    Split sep (a ++ sep :: b) = a :: Split sep b := by
  induction a with
  | nil => simp [Split]
  | cons c a ih =>
    have hc : ¬ c = sep := fun e => h (by simp [e])
    have hs : sep ∉ a := fun e => h (by simp [e])
    simp [Split, hc, ih hs]

theorem Split_joinAmp (x : Str) (xs : List Str) (hx : ch '&' ∉ x)
    (hxs : ∀ y ∈ xs, ch '&' ∉ y) : Split (ch '&') (joinAmp (x :: xs)) = x :: xs := by
  induction xs generalizing x with
  | nil => simpa [joinAmp] using Split_of_not_mem _ _ hx
  | cons y ys ih =>
    have h1 := ih y (hxs y (by simp)) (fun z hz => hxs z (by simp [hz]))
    simp only [joinAmp, List.flatMap_cons, List.cons_append] at h1 ⊢
    rw [Split_append _ _ _ hx, h1]

/-! ## Values.Encode -/

theorem encodedPair_queryByte (kv : Str × Str) :
    ∀ x ∈ encodedPair kv, x = ch '=' ∨ queryByte x = true := by
  intro x hx
  simp only [encodedPair, List.mem_append, List.mem_singleton] at hx
  rcases hx with (hx | hx) | hx
  · exact Or.inr (QueryEscape_queryByte _ x hx)
  · exact Or.inl hx
  · exact Or.inr (QueryEscape_queryByte _ x hx)

theorem encodedPair_ne_nil (kv : Str × Str) : encodedPair kv ≠ [] := by
  simp [encodedPair]

theorem foldl_encodePair_nonempty (ps : List (Str × Str)) (buf : Str) (hb : buf ≠ []) :
    ps.foldl (fun buf kv => encodePair (QueryEscape kv.1) buf kv.2) buf =
      buf ++ ps.flatMap (fun kv => ch '&' :: encodedPair kv) := by
  induction ps generalizing buf with
  | nil => simp
  | cons p ps ih =>
    have hlen : buf.length > 0 := List.length_pos.2 hb
    have hstep : encodePair (QueryEscape p.1) buf p.2 = buf ++ ch '&' :: encodedPair p := by
      simp [encodePair, hlen, encodedPair]
    rw [List.foldl_cons, hstep, ih _ (by simp [hb])]
    simp

theorem foldl_encodePair (ps : List (Str × Str)) :
    ps.foldl (fun buf kv => encodePair (QueryEscape kv.1) buf kv.2) [] =
      joinAmp (ps.map encodedPair) := by
  cases ps with
  | nil => rfl
  | cons p ps =>
    have hstep : encodePair (QueryEscape p.1) [] p.2 = encodedPair p := by
      simp [encodePair, encodedPair]
    rw [List.foldl_cons, hstep, foldl_encodePair_nonempty _ _ (encodedPair_ne_nil p)]
    simp [joinAmp, List.flatMap, List.map_map, Function.comp_def]

theorem foldl_values_pairs (v : Values) (keys : List Str) (buf : Str) :
    keys.foldl (fun buf k => (Values.values v k).foldl (encodePair (QueryEscape k)) buf) buf =
      (keys.flatMap (fun k => (Values.values v k).map (fun x => (k, x)))).foldl
        (fun buf kv => encodePair (QueryEscape kv.1) buf kv.2) buf := by
  induction keys generalizing buf with
  | nil => rfl
  | cons k keys ih =>
    rw [List.foldl_cons, ih, List.flatMap_cons, List.foldl_append, List.foldl_map]

theorem sortStrings_perm (l : List Str) : (sortStrings l).Perm l :=
  List.perm_insertionSort StrLE l

theorem Values_pairs_nil : Values.pairs [] = [] := by
  have h : sortStrings (mapKeys ([] : Values)) = [] := rfl
  simp [Values.pairs, h]

theorem Values_Encode_eq (v : Values) :
    Values.Encode v = joinAmp ((Values.pairs v).map encodedPair) := by
  unfold Values.Encode
  split
  · rename_i h
    have hv : v = [] := List.length_eq_zero.1 h
    subst hv
    rw [Values_pairs_nil]
    rfl
  · rw [foldl_values_pairs, foldl_encodePair]
    rfl

/-! ## ParseQuery after Values.Encode -/

theorem Contains_singleton (s : Str) (c : Byte) : Contains s [c] = true ↔ c ∈ s := by
  rw [Contains_iff]
  constructor
  · rintro ⟨a, b, h⟩
    rw [h]
    simp
  · intro h
    obtain ⟨a, b, hab⟩ := List.append_of_mem h
    exact ⟨a, b, by simp [hab]⟩

theorem QueryEscape_not_mem (s : Str) (c : Byte) (hc : queryByte c = false) :
    c ∉ QueryEscape s := by
  intro h
  have := QueryEscape_queryByte s c h
  rw [hc] at this
  exact Bool.false_ne_true this

theorem encodedPair_not_mem (kv : Str × Str) (c : Byte) (hc : queryByte c = false)
    (he : c ≠ ch '=') : c ∉ encodedPair kv := by
  intro h
  rcases encodedPair_queryByte kv c h with h1 | h1
  · exact he h1
  · rw [hc] at h1
    exact Bool.false_ne_true h1

theorem parsePair_encodedPair (m : Values) (k v : Str) :
    parsePair m (encodedPair (k, v)) = Values.Add m k v := by
  have h1 : ¬ Contains (encodedPair (k, v)) [ch ';'] = true := by
    rw [Contains_singleton]
    exact encodedPair_not_mem _ _ (by decide) (by decide)
  have h2 : ¬ encodedPair (k, v) = [] := encodedPair_ne_nil _
  have h3 : Cut (ch '=') (encodedPair (k, v)) = (QueryEscape k, QueryEscape v, true) := by
    have : encodedPair (k, v) = QueryEscape k ++ ch '=' :: QueryEscape v := by
      simp [encodedPair]
    rw [this]
    exact Cut_append _ _ _ (QueryEscape_not_mem _ _ (by decide))
  unfold parsePair
  rw [if_neg h1, if_neg h2, h3]
  simp only [QueryUnescape_QueryEscape]

theorem foldl_parsePair_encoded (ps : List (Str × Str)) (m : Values) :
    (ps.map encodedPair).foldl parsePair m = ps.foldl (fun m kv => Values.Add m kv.1 kv.2) m := by
  induction ps generalizing m with
  | nil => rfl
  | cons p ps ih =>
    obtain ⟨k, v⟩ := p
    rw [List.map_cons, List.foldl_cons, List.foldl_cons, parsePair_encodedPair, ih]

theorem ParseQuery_Encode (v : Values) :
    ParseQuery (Values.Encode v) =
      (Values.pairs v).foldl (fun m kv => Values.Add m kv.1 kv.2) [] := by
  rw [Values_Encode_eq]
  unfold ParseQuery
  cases hps : Values.pairs v with
  | nil =>
    simp only [List.map_nil, joinAmp, Split, List.foldl_cons, List.foldl_nil]
    unfold parsePair
    rw [if_neg (by decide), if_pos rfl]
  | cons p ps =>
    rw [List.map_cons, Split_joinAmp, ← List.map_cons, foldl_parsePair_encoded]
    · exact encodedPair_not_mem _ _ (by decide) (by decide)
    · intro y hy
      obtain ⟨q, _, hq⟩ := List.mem_map.1 hy
      rw [← hq]
      exact encodedPair_not_mem _ _ (by decide) (by decide)

theorem Values_values_Add (m : Values) (k v k2 : Str) :
    Values.values (Values.Add m k v) k2 =
      if k = k2 then Values.values m k2 ++ [v] else Values.values m k2 := by
  unfold Values.Add Values.values
  by_cases h : k = k2
  · subst h
    simp [mapGet_mapPut_self]
  · have h2 : k2 ≠ k := fun e => h e.symm
    simp [mapGet_mapPut_of_ne _ _ _ _ h2, h]

theorem Values_values_foldl_Add (ps : List (Str × Str)) (m : Values) (k : Str) :
    Values.values (ps.foldl (fun m kv => Values.Add m kv.1 kv.2) m) k =
      Values.values m k ++ (ps.filter (fun kv => decide (kv.1 = k))).map Prod.snd := by
  induction ps generalizing m with
  | nil => simp
  | cons p ps ih =>
    rw [List.foldl_cons, ih, Values_values_Add]
    by_cases h : p.1 = k
    · simp [h]
    · simp [h]

theorem filter_pairs_of_not_mem (f : Str → List Str) (keys : List Str) (k : Str)
    (hk : k ∉ keys) :
    ((keys.flatMap (fun k2 => (f k2).map (fun x => (k2, x)))).filter
      (fun kv => decide (kv.1 = k))).map Prod.snd = [] := by
  induction keys with
  | nil => rfl
  | cons a keys ih =>
    have ha : ¬ a = k := fun e => hk (by simp [e])
    have hk2 : k ∉ keys := fun e => hk (by simp [e])
    rw [List.flatMap_cons, List.filter_append, List.map_append, ih hk2]
    simp [List.filter_map, Function.comp_def, ha]

theorem filter_pairs_of_mem (f : Str → List Str) (keys : List Str) (k : Str)
    (hn : keys.Nodup) (hk : k ∈ keys) :
    ((keys.flatMap (fun k2 => (f k2).map (fun x => (k2, x)))).filter
      (fun kv => decide (kv.1 = k))).map Prod.snd = f k := by
  induction keys with
  | nil => simp at hk
  | cons a keys ih =>
    rw [List.nodup_cons] at hn
    rw [List.flatMap_cons, List.filter_append, List.map_append]
    by_cases ha : a = k
    · subst ha
      rw [filter_pairs_of_not_mem f keys a hn.1]
      simp [List.filter_map, Function.comp_def]
    · have hk2 : k ∈ keys := by
        rcases List.mem_cons.1 hk with h | h
        · exact absurd h.symm ha
        · exact h
      rw [ih hn.2 hk2]
      simp [List.filter_map, Function.comp_def, ha]

theorem mapGet_eq_none {V : Type} (m : List (Str × V)) (k : Str) (hk : k ∉ mapKeys m) :
    mapGet m k = none := by
  induction m with
  | nil => rfl
  | cons e m ih =>
    obtain ⟨k', v'⟩ := e
    have h1 : ¬ k' = k := fun e => hk (by simp [mapKeys, e])
    have h2 : k ∉ mapKeys m := fun e => hk (by simp [mapKeys] at e ⊢; exact Or.inr e)
    simp [mapGet, h1, ih h2]

/-- Decoding an encoded `Values` map gives back, key by key, the values of the map. -/
theorem values_ParseQuery_Encode (v : Values) (hn : (mapKeys v).Nodup) (k : Str) :
    Values.values (ParseQuery (Values.Encode v)) k = Values.values v k := by
  rw [ParseQuery_Encode, Values_values_foldl_Add]
  have hnil : Values.values ([] : Values) k = [] := rfl
  rw [hnil, List.nil_append]
  unfold Values.pairs
  by_cases hk : k ∈ mapKeys v
  · exact filter_pairs_of_mem _ _ _ ((sortStrings_perm _).nodup_iff.2 hn)
      ((sortStrings_perm _).mem_iff.2 hk)
  · rw [filter_pairs_of_not_mem _ _ _ (fun h => hk ((sortStrings_perm _).mem_iff.1 h))]
    unfold Values.values
    rw [mapGet_eq_none _ _ hk]
    rfl

theorem Get_ParseQuery_Encode (v : Values) (hn : (mapKeys v).Nodup) (k : Str) :
    Values.Get (ParseQuery (Values.Encode v)) k = Values.Get v k := by
  unfold Values.Get
  rw [values_ParseQuery_Encode v hn k]

/-! ## url.Parse and URL.String -/

theorem Cut_fst_not_mem (sep : Byte) (s : Str) : sep ∉ (Cut sep s).1 := by
  induction s with
  | nil => simp [Cut]
  | cons c s ih =>
    by_cases hc : c = sep
    · simp [Cut, hc]
    · have hc2 : ¬ sep = c := fun e => hc e.symm
      simp [Cut, hc, hc2, ih]

theorem Cut_fst_sublist (sep : Byte) (s : Str) : List.Sublist (Cut sep s).1 s := by
  induction s with
  | nil => simp [Cut]
  | cons c s ih =>
    by_cases hc : c = sep
    · simp [Cut, hc]
    · simpa [Cut, hc] using ih

theorem Cut_snd_sublist (sep : Byte) (s : Str) : List.Sublist (Cut sep s).2.1 s := by
  induction s with
  | nil => simp [Cut]
  | cons c s ih =>
    by_cases hc : c = sep
    · simp [Cut, hc]
    · simpa [Cut, hc] using List.Sublist.cons c ih

theorem noCTL_of_sublist (l s : Str) (h : List.Sublist l s)
    (hs : stringContainsCTLByte s = false) : stringContainsCTLByte l = false := by
  unfold stringContainsCTLByte at hs ⊢
  rw [List.any_eq_false] at hs ⊢
  intro x hx
  exact hs x (h.subset hx)

theorem noCTL_append (a b : Str) :
    stringContainsCTLByte (a ++ b) = false ↔
      stringContainsCTLByte a = false ∧ stringContainsCTLByte b = false := by
  unfold stringContainsCTLByte
  simp only [List.any_append, Bool.or_eq_false_iff]

theorem not_mem_dropLast_of_count (s : Str) (c : Byte) (h1 : s.getLast? = some c)
    (h2 : s.count c = 1) : c ∉ s.dropLast := by
  have hs : s = s.dropLast ++ [c] := by
    have := List.dropLast_append_getLast? c h1
    exact this.symm
  rw [hs, List.count_append] at h2
  simp only [List.count_singleton_self] at h2
  exact List.count_eq_zero.1 (by omega)

/-- The facts about a parsed URL that rebuilding and reparsing it rests on. -/
theorem Parse_parts (u : Str) (pu : URL) (hp : Parse u = some pu) :
    ch '?' ∉ pu.Base ∧ ch '#' ∉ pu.Base ∧ stringContainsCTLByte pu.Base = false ∧
    (∃ t, unescape .encodeFragment pu.Fragment = .ok t) ∧
    ch '#' ∉ pu.RawQuery ∧ stringContainsCTLByte pu.RawQuery = false ∧
    (pu.ForceQuery = true → pu.RawQuery = []) := by
  unfold Parse at hp
  have hno : ch '#' ∉ (Cut (ch '#') u).1 := Cut_fst_not_mem _ _
  generalize (Cut (ch '#') u).1 = u0 at hp hno
  generalize (Cut (ch '#') u).2.1 = frag at hp
  by_cases hctl : stringContainsCTLByte u0 = true
  · simp [hctl] at hp
  · have hctl2 : stringContainsCTLByte u0 = false := by simpa using hctl
    rw [if_neg hctl] at hp
    cases hf : unescape .encodeFragment frag with
    | error e => simp [hf] at hp
    | ok t =>
      simp only [hf] at hp
      split at hp
      · rename_i hc
        simp only [Option.some.injEq] at hp
        subst hp
        have hsub : List.Sublist u0.dropLast u0 := List.dropLast_sublist u0
        exact ⟨not_mem_dropLast_of_count _ _ hc.1 hc.2, fun h => hno (hsub.subset h),
          noCTL_of_sublist _ _ hsub hctl2, ⟨t, hf⟩, by simp, rfl, fun _ => rfl⟩
      · simp only [Option.some.injEq] at hp
        subst hp
        have hs1 := Cut_fst_sublist (ch '?') u0
        have hs2 := Cut_snd_sublist (ch '?') u0
        exact ⟨Cut_fst_not_mem _ _, fun h => hno (hs1.subset h),
          noCTL_of_sublist _ _ hs1 hctl2, ⟨t, hf⟩, fun h => hno (hs2.subset h),
          noCTL_of_sublist _ _ hs2 hctl2, fun h => by simp at h⟩

theorem Cut_hash_String (B rq F : Str) (f : Bool) (hB : ch '#' ∉ B) (hq : ch '#' ∉ rq) :
    (Cut (ch '#') (URL.String ⟨B, f, rq, F⟩)).1 =
        B ++ (if f = true ∨ rq ≠ [] then ch '?' :: rq else []) ∧
    (Cut (ch '#') (URL.String ⟨B, f, rq, F⟩)).2.1 = F := by
  have h0 : ch '#' ∉ B ++ (if f = true ∨ rq ≠ [] then ch '?' :: rq else []) := by
    intro h
    rcases List.mem_append.1 h with h | h
    · exact hB h
    · split at h
      · rcases List.mem_cons.1 h with h | h
        · exact absurd h (by decide)
        · exact hq h
      · simp at h
  unfold URL.String
  by_cases hF : F = []
  · subst hF
    simp only [ne_eq, not_true_eq_false, if_false, List.append_nil]
    rw [Cut_of_not_mem _ _ h0]
    exact ⟨rfl, rfl⟩
  · simp only [ne_eq, hF, not_false_eq_true, if_true]
    rw [Cut_append _ _ _ h0]
    exact ⟨rfl, rfl⟩

/-- Parsing the text of a URL gives the URL back (with `ForceQuery` kept only for an
empty query). -/
theorem Parse_String (B rq F : Str) (f : Bool) (hB1 : ch '?' ∉ B) (hB2 : ch '#' ∉ B)
    (hB3 : stringContainsCTLByte B = false)
    (hF : ∃ t, unescape .encodeFragment F = .ok t)
    (hq1 : ch '#' ∉ rq) (hq2 : stringContainsCTLByte rq = false) :
    Parse (URL.String ⟨B, f, rq, F⟩) = some ⟨B, f && rq.isEmpty, rq, F⟩ := by
  obtain ⟨t, ht⟩ := hF
  obtain ⟨h1, h2⟩ := Cut_hash_String B rq F f hB2 hq1
  unfold Parse
  rw [h1, h2]
  have hctl : stringContainsCTLByte (B ++ (if f = true ∨ rq ≠ [] then ch '?' :: rq else []))
      = false := by
    rw [noCTL_append]
    refine ⟨hB3, ?_⟩
    split
    · have : stringContainsCTLByte (ch '?' :: rq) = stringContainsCTLByte ([ch '?'] ++ rq) := rfl
      rw [this, noCTL_append]
      exact ⟨by decide, hq2⟩
    · rfl
  rw [hctl]
  simp only [Bool.false_eq_true, if_false, ht]
  cases rq with
  | nil =>
    cases f with
    | true =>
      have hc : (B ++ [ch '?']).count (ch '?') = 1 := by
        rw [List.count_append, List.count_eq_zero.2 hB1]
        rfl
      simp [hc]
    | false =>
      have hl : ¬ B.getLast? = some (ch '?') := fun h => hB1 (List.mem_of_getLast?_eq_some h)
      simp [hl, Cut_of_not_mem _ _ hB1]
  | cons c r =>
    have hcond : ¬ ((B ++ ch '?' :: c :: r).getLast? = some (ch '?') ∧
        (B ++ ch '?' :: c :: r).count (ch '?') = 1) := by
      rintro ⟨hl, hc⟩
      have hl2 : (c :: r).getLast? = some (ch '?') := by
        have : B ++ ch '?' :: c :: r = (B ++ [ch '?']) ++ (c :: r) := by simp
        rw [this, List.getLast?_append_of_ne_nil _ (by simp)] at hl
        exact hl
      have hm : ch '?' ∈ c :: r := List.mem_of_getLast?_eq_some hl2
      have hpos : 0 < (c :: r).count (ch '?') := List.count_pos_iff.2 hm
      have : B ++ ch '?' :: c :: r = B ++ ([ch '?'] ++ (c :: r)) := by simp
      rw [this, List.count_append, List.count_append, List.count_eq_zero.2 hB1] at hc
      simp only [List.count_singleton_self] at hc
      omega
    simp only [ne_eq, reduceCtorEq, not_false_eq_true, or_true, if_true, hcond, if_false,
      Cut_append _ _ _ hB1, List.isEmpty_cons, Bool.and_false]

/-! ## the text of an encoded query -/

theorem joinAmp_bytes (xs : List Str) (P : Byte → Prop) (hamp : P (ch '&'))
    (h : ∀ x ∈ xs, ∀ c ∈ x, P c) : ∀ c ∈ joinAmp xs, P c := by
  cases xs with
  | nil => simp [joinAmp]
  | cons x xs =>
    intro c hc
    simp only [joinAmp, List.mem_append, List.mem_flatMap, List.mem_cons] at hc
    rcases hc with hc | ⟨y, hy, hc | hc⟩
    · exact h x (by simp) c hc
    · rw [hc]; exact hamp
    · exact h y (by simp [hy]) c hc

theorem Encode_bytes (v : Values) :
    ∀ c ∈ Values.Encode v, c = ch '&' ∨ c = ch '=' ∨ queryByte c = true := by
  rw [Values_Encode_eq]
  apply joinAmp_bytes _ (fun c => c = ch '&' ∨ c = ch '=' ∨ queryByte c = true) (Or.inl rfl)
  intro x hx c hc
  obtain ⟨kv, _, hkv⟩ := List.mem_map.1 hx
  rw [← hkv] at hc
  exact Or.inr (encodedPair_queryByte kv c hc)

theorem Encode_no_hash (v : Values) : ch '#' ∉ Values.Encode v := by
  intro h
  rcases Encode_bytes v _ h with h | h | h
  · exact absurd h (by decide)
  · exact absurd h (by decide)
  · exact absurd h (by decide)

theorem Encode_noCTL (v : Values) : stringContainsCTLByte (Values.Encode v) = false := by
  unfold stringContainsCTLByte
  rw [List.any_eq_false]
  intro c hc
  rcases Encode_bytes v c hc with h | h | h
  · subst h; decide
  · subst h; decide
  · have := (queryByte_plain c h).2.2.2.2.2
    simp [this]

/-! ## the findings of a run -/

/-- A run that read no response body prints no finding line. -/
theorem processURL_cases (rt : Runtime) (u : Str) (o : Bool) (method : Str) (keep : Bool)
    (headers p ct : Str) :
    (∃ pu buf, Parse u = some pu ∧
      (processURL rt u o method keep headers p ct).response = some buf) ∨
    (∀ e ∈ (processURL rt u o method keep headers p ct).stdout, e.key = none) := by
  unfold processURL
  cases hp : Parse u with
  | none => right; simp [Event.key]
  | some pu =>
    dsimp only
    by_cases hlen : (rt.rangeKeys (mapKeys pu.Query)).length = 0
    · right; simp [hlen, Event.key]
    · simp only [hlen, if_false]
      generalize (if bodyMethod method = true then
        encodeBody ct pu.Query (rt.rangeKeys (mapKeys pu.Query)) else some (none, [])) = eb
      cases eb with
      | none => right; simp [Event.key]
      | some rb =>
        obtain ⟨requestBody, cth⟩ := rb
        dsimp only
        generalize NewRequest method (targetURL pu method keep).String requestBody = nr
        cases nr with
        | none => right; simp [Event.key]
        | some req =>
          dsimp only
          generalize rt.send (withHeaders req headers cth) = resp
          cases resp with
          | failed => right; simp [Event.key]
          | unreadable => right; simp [Event.key]
          | body b => left; exact ⟨pu, b, rfl, rfl⟩

theorem scanKey_roundTrips (buf p : Str) (o : Bool) (st : ScanState) (k : Str)
    (hB1 : ch '?' ∉ st.parsedURL.Base) (hB2 : ch '#' ∉ st.parsedURL.Base)
    (hB3 : stringContainsCTLByte st.parsedURL.Base = false)
    (hF : ∃ t, unescape .encodeFragment st.parsedURL.Fragment = .ok t)
    (hn : (mapKeys st.queryValues).Nodup) (hr : roundTrips p st.stdout) :
    (scanKey buf p o st k).parsedURL.Base = st.parsedURL.Base ∧
    (scanKey buf p o st k).parsedURL.Fragment = st.parsedURL.Fragment ∧
    (mapKeys (scanKey buf p o st k).queryValues).Nodup ∧
    roundTrips p (scanKey buf p o st k).stdout := by
  unfold scanKey
  split
  · refine ⟨rfl, rfl, hn, ?_⟩
    intro key d url p2 hmem
    simp only [List.mem_append, List.mem_singleton, reduceCtorEq, or_false] at hmem
    exact hr key d url p2 hmem
  · rename_i dv _
    split
    · have hn2 : (mapKeys (Values.Set st.queryValues k (dv ++ p))).Nodup :=
        mapKeys_mapPut_nodup _ _ _ hn
      refine ⟨rfl, rfl, hn2, ?_⟩
      intro key d url p2 hmem
      simp only [List.mem_append, List.mem_singleton, Event.reflected.injEq] at hmem
      rcases hmem with hmem | ⟨h1, h2, h3, h4⟩
      · exact hr key d url p2 hmem
      · subst h1 h2 h4
        refine ⟨rfl, _, h3 ▸ Parse_String st.parsedURL.Base _ st.parsedURL.Fragment
          st.parsedURL.ForceQuery hB1 hB2 hB3 hF (Encode_no_hash _) (Encode_noCTL _), ?_⟩
        show Values.Get (ParseQuery (Values.Encode (Values.Set st.queryValues key (d ++ p2)))) key
          = d ++ p2
        rw [Get_ParseQuery_Encode _ hn2, Values_Get_Set_self]
    · refine ⟨rfl, rfl, hn, ?_⟩
      intro key d url p2 hmem
      simp only [List.mem_append, List.mem_singleton, reduceCtorEq, or_false] at hmem
      exact hr key d url p2 hmem

theorem scan_roundTrips (buf p : Str) (o : Bool) (l : List Str) (st : ScanState)
    (hB1 : ch '?' ∉ st.parsedURL.Base) (hB2 : ch '#' ∉ st.parsedURL.Base)
    (hB3 : stringContainsCTLByte st.parsedURL.Base = false)
    (hF : ∃ t, unescape .encodeFragment st.parsedURL.Fragment = .ok t)
    (hn : (mapKeys st.queryValues).Nodup) (hr : roundTrips p st.stdout) :
    roundTrips p (l.foldl (scanKey buf p o) st).stdout := by
  induction l generalizing st with
  | nil => exact hr
  | cons k l ih =>
    obtain ⟨h1, h2, h3, h4⟩ := scanKey_roundTrips buf p o st k hB1 hB2 hB3 hF hn hr
    exact ih (scanKey buf p o st k) (h1 ▸ hB1) (h1 ▸ hB2) (h1 ▸ hB3) (h2 ▸ hF) h3 h4

theorem targetURL_Base (pu : URL) (method : Str) (keep : Bool) :
    (targetURL pu method keep).Base = pu.Base ∧
      (targetURL pu method keep).Fragment = pu.Fragment := by
  unfold targetURL
  split <;> exact ⟨rfl, rfl⟩

theorem processURL_roundTrips (rt : Runtime) (u : Str) (o : Bool) (method : Str)
    (keep : Bool) (headers p ct : Str) :
    roundTrips p (processURL rt u o method keep headers p ct).stdout := by
  rcases processURL_cases rt u o method keep headers p ct with ⟨pu, buf, hp, hb⟩ | hnone
  · rw [(processURL_scan rt u o method keep headers p ct buf pu hp hb).1]
    obtain ⟨h1, h2, h3, h4, _⟩ := Parse_parts u pu hp
    obtain ⟨hb1, hb2⟩ := targetURL_Base pu method keep
    apply scan_roundTrips
    · exact hb1 ▸ h1
    · exact hb1 ▸ h2
    · exact hb1 ▸ h3
    · exact hb2 ▸ h4
    · exact ParseQuery_nodup _
    · intro key d url p2 hmem
      simp at hmem
  · intro key d url p2 hmem
    have := hnone _ hmem
    simp [Event.key] at this

/-! ## the request -/

theorem rangeKeys_ne_nil (rt : Runtime) (hrt : ∀ l, (rt.rangeKeys l).Perm l) (l : List Str)
    (hl : l ≠ []) : ¬ (rt.rangeKeys l).length = 0 := by
  rw [(hrt l).length_eq]
  intro h0
  exact hl (List.length_eq_zero.1 h0)

theorem ParseQuery_nil : ParseQuery [] = [] := by
  decide

/-- A URL with a query key has no forced empty query. -/
theorem ForceQuery_of_keys (u : Str) (pu : URL) (hp : Parse u = some pu)
    (hk : mapKeys pu.Query ≠ []) : pu.ForceQuery = false := by
  cases hf : pu.ForceQuery with
  | false => rfl
  | true =>
    have hq := (Parse_parts u pu hp).2.2.2.2.2.2 hf
    exfalso
    apply hk
    unfold URL.Query
    rw [hq, ParseQuery_nil]
    rfl

/-- The request `http.NewRequest` builds for the target of a parsed URL. -/
theorem NewRequest_target (u : Str) (pu : URL) (hp : Parse u = some pu) (method : Str)
    (hm : validMethod method = true) (hne : method ≠ []) (keep : Bool) (rb : Option Str) :
    NewRequest method (URL.String (targetURL pu method keep)) rb =
      some ⟨method,
        ⟨pu.Base, (targetURL pu method keep).ForceQuery && (targetURL pu method keep).RawQuery.isEmpty,
          (targetURL pu method keep).RawQuery, pu.Fragment⟩, [], rb⟩ := by
  obtain ⟨h1, h2, h3, h4, h5, h6, _⟩ := Parse_parts u pu hp
  have hq : ch '#' ∉ (targetURL pu method keep).RawQuery ∧
      stringContainsCTLByte (targetURL pu method keep).RawQuery = false := by
    unfold targetURL
    split
    · exact ⟨by simp, rfl⟩
    · exact ⟨h5, h6⟩
  obtain ⟨hb1, hb2⟩ := targetURL_Base pu method keep
  have hs : URL.String (targetURL pu method keep) =
      URL.String ⟨pu.Base, (targetURL pu method keep).ForceQuery,
        (targetURL pu method keep).RawQuery, pu.Fragment⟩ := by
    rw [← hb1, ← hb2]
  unfold NewRequest
  rw [hs, Parse_String _ _ _ _ h1 h2 h3 h4 hq.1 hq.2]
  simp only [hne, if_false, hm, if_true]

/-- The request a POST or PATCH run hands to the client. -/
theorem processURL_sent (rt : Runtime) (hrt : ∀ l, (rt.rangeKeys l).Perm l) (u : Str)
    (o : Bool) (method : Str) (keep : Bool) (headers p ct : Str) (pu : URL)
    (hp : Parse u = some pu) (hk : mapKeys pu.Query ≠ [])
    (hm : method = ascii "POST" ∨ method = ascii "PATCH")
    (rb : Option Str) (cth : Str)
    (he : encodeBody ct pu.Query (rt.rangeKeys (mapKeys pu.Query)) = some (rb, cth)) :
    (processURL rt u o method keep headers p ct).sent =
      some (withHeaders
        ⟨method, ⟨pu.Base, (targetURL pu method keep).ForceQuery &&
            (targetURL pu method keep).RawQuery.isEmpty,
          (targetURL pu method keep).RawQuery, pu.Fragment⟩, [], rb⟩ headers cth) := by
  have hlen := rangeKeys_ne_nil rt hrt _ hk
  have hb : bodyMethod method = true := by
    rcases hm with h | h <;> subst h <;> decide
  have hv : validMethod method = true := by
    rcases hm with h | h <;> subst h <;> decide
  have hne : method ≠ [] := by
    rcases hm with h | h <;> subst h <;> decide
  unfold processURL
  rw [hp]
  simp only [hlen, if_false, hb, if_true, he, NewRequest_target u pu hp method hv hne keep rb]
  generalize rt.send _ = resp
  cases resp <;> rfl

/-! ## sorting -/

theorem strLe_total (a b : Str) : strLe a b = true ∨ strLe b a = true := by
  induction a generalizing b with
  | nil => exact Or.inl rfl
  | cons x a ih =>
    cases b with
    | nil => exact Or.inr rfl
    | cons y b =>
      rcases lt_trichotomy x y with h | h | h
      · left; simp [strLe, h]
      · subst h
        simpa [strLe] using ih b
      · right; simp [strLe, h]

theorem strLe_trans (a b c : Str) (h1 : strLe a b = true) (h2 : strLe b c = true) :
    strLe a c = true := by
  induction a generalizing b c with
  | nil => rfl
  | cons x a ih =>
    cases b with
    | nil => simp [strLe] at h1
    | cons y b =>
      cases c with
      | nil => simp [strLe] at h2
      | cons z c =>
        simp only [strLe] at h1 h2 ⊢
        by_cases hxy : x < y
        · by_cases hyz : y < z
          · simp [lt_trans hxy hyz]
          · by_cases hyz2 : y = z
            · subst hyz2; simp [hxy]
            · simp [hyz, hyz2] at h2
        · by_cases hxy2 : x = y
          · subst hxy2
            by_cases hyz : x < z
            · simp [hyz]
            · by_cases hyz2 : x = z
              · subst hyz2
                simp only [lt_irrefl, if_false, if_true] at h1 h2 ⊢
                exact ih b c h1 h2
              · simp [hyz, hyz2] at h2
          · simp [hxy, hxy2] at h1

theorem strLe_antisymm (a b : Str) (h1 : strLe a b = true) (h2 : strLe b a = true) : a = b := by
  induction a generalizing b with
  | nil =>
    cases b with
    | nil => rfl
    | cons y b => simp [strLe] at h2
  | cons x a ih =>
    cases b with
    | nil => simp [strLe] at h1
    | cons y b =>
      simp only [strLe] at h1 h2
      by_cases hxy : x < y
      · have h3 : ¬ y < x := not_lt.2 (le_of_lt hxy)
        have h4 : ¬ y = x := fun e => (ne_of_lt hxy) e.symm
        simp [h3, h4] at h2
      · by_cases hxy2 : x = y
        · subst hxy2
          simp only [lt_irrefl, if_false, if_true] at h1 h2
          rw [ih b h1 h2]
        · simp [hxy, hxy2] at h1

theorem sortStrings_eq_of_perm (l1 l2 : List Str) (h : l1.Perm l2) :
    sortStrings l1 = sortStrings l2 := by
  haveI : IsTotal Str StrLE := ⟨strLe_total⟩
  haveI : IsTrans Str StrLE := ⟨strLe_trans⟩
  haveI : IsAntisymm Str StrLE := ⟨strLe_antisymm⟩
  apply List.eq_of_perm_of_sorted (r := StrLE)
  · exact ((List.perm_insertionSort StrLE l1).trans h).trans (List.perm_insertionSort StrLE l2).symm
  · exact List.sorted_insertionSort StrLE l1
  · exact List.sorted_insertionSort StrLE l2

/-! ## the request bodies -/

theorem mapKeys_foldl_mapPut {V : Type} (g : Str → V) (l : List Str) (m : List (Str × V))
    (hl : l.Nodup) (hd : ∀ k ∈ l, k ∉ mapKeys m) :
    mapKeys (l.foldl (fun m k => mapPut m k (g k)) m) = mapKeys m ++ l := by
  induction l generalizing m with
  | nil => simp
  | cons k l ih =>
    rw [List.nodup_cons] at hl
    have hk : k ∉ mapKeys m := hd k (by simp)
    rw [List.foldl_cons, ih _ hl.2, mapKeys_mapPut, if_neg hk]
    · simp
    · intro k2 hk2 hmem
      rw [mem_mapKeys_mapPut] at hmem
      rcases hmem with h | h
      · exact hl.1 (h ▸ hk2)
      · exact hd k2 (by simp [hk2]) h

theorem mapGet_foldl_mapPut {V : Type} (g : Str → V) (l : List Str) (m : List (Str × V))
    (k : Str) (hk : k ∈ l) :
    mapGet (l.foldl (fun m k => mapPut m k (g k)) m) k = some (g k) := by
  induction l generalizing m with
  | nil => simp at hk
  | cons a l ih =>
    rw [List.foldl_cons]
    by_cases hmem : k ∈ l
    · exact ih _ hmem
    · have ha : k = a := by
        rcases List.mem_cons.1 hk with h | h
        · exact h
        · exact absurd h hmem
      subst ha
      have : ∀ (l : List Str) (m : List (Str × V)), k ∉ l →
          mapGet (l.foldl (fun m k => mapPut m k (g k)) m) k = mapGet m k := by
        intro l
        induction l with
        | nil => intro m _; rfl
        | cons b l ih2 =>
          intro m hb
          have hb1 : k ≠ b := fun e => hb (by simp [e])
          have hb2 : k ∉ l := fun e => hb (by simp [e])
          rw [List.foldl_cons, ih2 _ hb2, mapGet_mapPut_of_ne _ _ _ _ hb1]
      rw [this l _ hmem, mapGet_mapPut_self]

/-- The JSON body does not depend on the order in which the keys were visited. -/
theorem jsonBody_eq (qv : Values) (keys queryKeys : List Str) (hn : queryKeys.Nodup)
    (hperm : queryKeys.Perm keys) :
    jsonBody qv queryKeys =
      jsonObject ((sortStrings keys).map (fun k => (k, Values.Get qv k))) := by
  unfold jsonBody Marshal
  rw [mapKeys_foldl_mapPut (fun k => Values.Get qv k) queryKeys [] hn (by simp [mapKeys])]
  have hs : sortStrings (mapKeys ([] : List (Str × Str)) ++ queryKeys) = sortStrings keys :=
    sortStrings_eq_of_perm _ _ (by simpa [mapKeys] using hperm)
  rw [hs]
  congr 1
  apply List.map_congr_left
  intro k hk
  have hk2 : k ∈ queryKeys := hperm.mem_iff.2 ((sortStrings_perm keys).mem_iff.1 hk)
  rw [mapGet_foldl_mapPut (fun k => Values.Get qv k) queryKeys [] k hk2]
  rfl

theorem foldl_Add_nodup (g : Str → Str) (l : List Str) (m : Values)
    (hm : (mapKeys m).Nodup) :
    (mapKeys (l.foldl (fun m k => Values.Add m k (g k)) m)).Nodup := by
  induction l generalizing m with
  | nil => exact hm
  | cons k l ih => exact ih _ (mapKeys_mapPut_nodup _ _ _ hm)

theorem filter_eq_self_of_nodup (l : List Str) (k : Str) (hn : l.Nodup) (hk : k ∈ l) :
    l.filter (fun a => decide (a = k)) = [k] := by
  induction l with
  | nil => simp at hk
  | cons a l ih =>
    rw [List.nodup_cons] at hn
    by_cases ha : a = k
    · subst ha
      have : l.filter (fun b => decide (b = a)) = [] := by
        rw [List.filter_eq_nil_iff]
        intro b hb
        have : b ≠ a := fun e => hn.1 (e ▸ hb)
        simp [this]
      simp [List.filter_cons, this]
    · have hk2 : k ∈ l := by
        rcases List.mem_cons.1 hk with h | h
        · exact absurd h.symm ha
        · exact h
      simp [List.filter_cons, ha, ih hn.2 hk2]

/-- Decoding the form body gives each query key its first value and nothing else. -/
theorem formBody_values (qv : Values) (queryKeys : List Str) (hn : queryKeys.Nodup) (k : Str) :
    Values.values (ParseQuery (formBody qv queryKeys)) k =
      if k ∈ queryKeys then [Values.Get qv k] else [] := by
  unfold formBody
  rw [values_ParseQuery_Encode _ (foldl_Add_nodup _ _ _ (by simp [mapKeys]))]
  have h := Values_values_foldl_Add (queryKeys.map (fun k => (k, Values.Get qv k))) [] k
  rw [List.foldl_map] at h
  rw [h]
  have hnil : Values.values ([] : Values) k = [] := rfl
  rw [hnil, List.nil_append, List.filter_map, List.map_map]
  have hcomp : ((fun kv : Str × Str => decide (kv.1 = k)) ∘ fun k => (k, Values.Get qv k))
      = fun a => decide (a = k) := rfl
  rw [hcomp]
  by_cases hk : k ∈ queryKeys
  · rw [if_pos hk, filter_eq_self_of_nodup _ _ hn hk]
    rfl
  · rw [if_neg hk]
    have hf : queryKeys.filter (fun a => decide (a = k)) = [] := by
      rw [List.filter_eq_nil_iff]
      intro a ha
      have : a ≠ k := fun e => hk (e ▸ ha)
      simp [this]
    rw [hf]
    rfl

/-! ## headers -/

theorem canonicalByte_lower : ∀ (up : Bool) (c : Byte),
    canonicalByte up (lowerByte c) = canonicalByte up c ∧
    decide (canonicalByte up (lowerByte c) = ch '-') = decide (canonicalByte up c = ch '-') ∧
    lowerByte (canonicalByte up c) = lowerByte c := by
  decide!

theorem lowerByte_token : ∀ c : Byte, lowerByte c ∈ ascii "content-type" →
    validHeaderFieldByte c = true := by
  decide!

theorem canonicalLoop_lower (up : Bool) (s : Str) :
    canonicalLoop up (s.map lowerByte) = canonicalLoop up s := by
  induction s generalizing up with
  | nil => rfl
  | cons c s ih =>
    obtain ⟨h1, h2, _⟩ := canonicalByte_lower up c
    simp only [List.map_cons, canonicalLoop, h1, ih]

theorem map_lower_canonicalLoop (up : Bool) (s : Str) :
    (canonicalLoop up s).map lowerByte = s.map lowerByte := by
  induction s generalizing up with
  | nil => rfl
  | cons c s ih =>
    simp only [canonicalLoop, List.map_cons, (canonicalByte_lower up c).2.2, ih]

/-- A canonical header key that is `content-type` up to letter case is `Content-Type`. -/
theorem canonical_content_type (s : Str)
    (h : (CanonicalMIMEHeaderKey s).map lowerByte = ascii "content-type") :
    CanonicalMIMEHeaderKey s = ascii "Content-Type" := by
  unfold CanonicalMIMEHeaderKey at h ⊢
  by_cases hv : s.all validHeaderFieldByte = true
  · rw [if_pos hv] at h ⊢
    rw [map_lower_canonicalLoop] at h
    rw [← canonicalLoop_lower, h]
    decide
  · rw [if_neg hv] at h
    exfalso
    apply hv
    rw [List.all_eq_true]
    intro c hc
    apply lowerByte_token
    rw [← h]
    exact List.mem_map_of_mem _ hc

theorem addCustomHeader_eq (h : Header) (header : Str) :
    addCustomHeader h header =
      if (Cut (ch ':') header).2.2 = true then
        Header.Add h (TrimSpace (Cut (ch ':') header).1) (TrimSpace (Cut (ch ':') header).2.1)
      else h := by
  unfold addCustomHeader SplitN2
  split_ifs <;> rfl

theorem foldl_addCustomHeader (l : List Str) (h : Header) :
    l.foldl addCustomHeader h =
      (l.filterMap (fun header =>
        if (Cut (ch ':') header).2.2 then
          some (TrimSpace (Cut (ch ':') header).1, TrimSpace (Cut (ch ':') header).2.1)
        else none)).foldl (fun h e => Header.Add h e.1 e.2) h := by
  induction l generalizing h with
  | nil => rfl
  | cons a l ih =>
    rw [List.foldl_cons, ih, addCustomHeader_eq, List.filterMap_cons]
    by_cases hc : (Cut (ch ':') a).2.2 = true
    · simp [hc]
    · simp [hc]

theorem addCustomHeaders_eq (headers : Str) (h : Header) :
    addCustomHeaders headers h =
      (customHeaderEntries headers).foldl (fun h e => Header.Add h e.1 e.2) h := by
  unfold addCustomHeaders customHeaderEntries
  by_cases hh : headers = []
  · subst hh
    simp [Split, Cut]
  · rw [if_pos hh, foldl_addCustomHeader]

theorem Header_Values_Add (h : Header) (key value name : Str) :
    Header.Values (Header.Add h key value) name =
      if CanonicalMIMEHeaderKey key = CanonicalMIMEHeaderKey name then
        Header.Values h name ++ [value]
      else Header.Values h name := by
  unfold Header.Add Header.Values
  by_cases hk : CanonicalMIMEHeaderKey key = CanonicalMIMEHeaderKey name
  · rw [if_pos hk, hk, mapGet_mapPut_self]
    rfl
  · rw [if_neg hk, mapGet_mapPut_of_ne _ _ _ _ (fun e => hk e.symm)]

theorem Header_Values_foldl_Add (es : List (Str × Str)) (h : Header) (name : Str) :
    Header.Values (es.foldl (fun h e => Header.Add h e.1 e.2) h) name =
      Header.Values h name ++
        (es.filter (fun e => decide (CanonicalMIMEHeaderKey e.1 = CanonicalMIMEHeaderKey name))).map
          Prod.snd := by
  induction es generalizing h with
  | nil => simp
  | cons e es ih =>
    rw [List.foldl_cons, ih, Header_Values_Add]
    by_cases hk : CanonicalMIMEHeaderKey e.1 = CanonicalMIMEHeaderKey name
    · simp [hk]
    · simp [hk]

theorem canonicalKeys_Add (h : Header) (key value : Str) (hc : canonicalKeys h)
    (hn : (mapKeys h).Nodup) :
    canonicalKeys (Header.Add h key value) ∧ (mapKeys (Header.Add h key value)).Nodup := by
  refine ⟨?_, mapKeys_mapPut_nodup _ _ _ hn⟩
  intro k hk
  unfold Header.Add at hk
  rw [mem_mapKeys_mapPut] at hk
  rcases hk with hk | hk
  · exact ⟨key, hk⟩
  · exact hc k hk

theorem canonicalKeys_foldl_Add (es : List (Str × Str)) (h : Header) (hc : canonicalKeys h)
    (hn : (mapKeys h).Nodup) :
    canonicalKeys (es.foldl (fun h e => Header.Add h e.1 e.2) h) ∧
      (mapKeys (es.foldl (fun h e => Header.Add h e.1 e.2) h)).Nodup := by
  induction es generalizing h with
  | nil => exact ⟨hc, hn⟩
  | cons e es ih =>
    obtain ⟨h1, h2⟩ := canonicalKeys_Add h e.1 e.2 hc hn
    exact ih _ h1 h2

theorem canonical_Content_Type : CanonicalMIMEHeaderKey (ascii "Content-Type") =
    ascii "Content-Type" := by
  decide

/-- The headers of a request whose content type header is set after the custom ones. -/
theorem withHeaders_content_type (req : Request) (hreq : req.Header = []) (headers cth : Str)
    (hcth : cth ≠ []) :
    Header.Values (withHeaders req headers cth).Header (ascii "Content-Type") = [cth] ∧
    (mapKeys (withHeaders req headers cth).Header).Nodup ∧
    (∀ k ∈ mapKeys (withHeaders req headers cth).Header,
      k.map lowerByte = ascii "content-type" → k = ascii "Content-Type") ∧
    (∀ name, CanonicalMIMEHeaderKey name ≠ ascii "Content-Type" →
      Header.Values (withHeaders req headers cth).Header name =
        ((customHeaderEntries headers).filter
          (fun e => decide (CanonicalMIMEHeaderKey e.1 = CanonicalMIMEHeaderKey name))).map
          Prod.snd) := by
  have hw : (withHeaders req headers cth).Header =
      Header.Set ((customHeaderEntries headers).foldl (fun h e => Header.Add h e.1 e.2) [])
        (ascii "Content-Type") cth := by
    unfold withHeaders
    rw [if_pos hcth, hreq, addCustomHeaders_eq]
  obtain ⟨hc, hn⟩ := canonicalKeys_foldl_Add (customHeaderEntries headers) []
    (by intro k hk; simp [mapKeys] at hk) (by simp [mapKeys])
  rw [hw]
  refine ⟨?_, ?_, ?_, ?_⟩
  · unfold Header.Set Header.Values
    rw [mapGet_mapPut_self]
    rfl
  · exact mapKeys_mapPut_nodup _ _ _ hn
  · intro k hk hl
    unfold Header.Set at hk
    rw [mem_mapKeys_mapPut] at hk
    rcases hk with hk | hk
    · rw [hk, canonical_Content_Type]
    · obtain ⟨s, hs⟩ := hc k hk
      rw [hs] at hl ⊢
      exact canonical_content_type s hl
  · intro name hname
    unfold Header.Set Header.Values
    rw [canonical_Content_Type, mapGet_mapPut_of_ne _ _ _ _ hname]
    have := Header_Values_foldl_Add (customHeaderEntries headers) [] name
    unfold Header.Values at this
    rw [this]
    rfl

/-! ## from the loop and the request to a whole run -/

theorem rangeKeys_nodup (rt : Runtime) (hrt : ∀ l, (rt.rangeKeys l).Perm l) (query : Str) :
    (rt.rangeKeys (mapKeys (ParseQuery query))).Nodup :=
  (hrt _).nodup_iff.2 (ParseQuery_nodup query)

/-- The finding of a whole run for one key of the query. -/
theorem processURL_finding (rt : Runtime) (hrt : ∀ l, (rt.rangeKeys l).Perm l) (u : Str)
    (o : Bool) (method : Str) (keep : Bool) (headers p ct buf : Str) (pu : URL)
    (hp : Parse u = some pu)
    (h : (processURL rt u o method keep headers p ct).response = some buf)
    (key : Str) (hk : key ∈ mapKeys pu.Query) (d : Str)
    (hd : QueryUnescape (Values.Get pu.Query key) = .ok d) :
    ∃ url, findingsFor key (processURL rt u o method keep headers p ct).stdout =
        [if Contains buf d then Event.reflected key d url p else Event.notFound key d url] ∧
      (Contains buf d = true → o = true →
        url ++ [ch '\n'] ∈ (processURL rt u o method keep headers p ct).file) := by
  obtain ⟨h1, h2⟩ := processURL_scan rt u o method keep headers p ct buf pu hp h
  rw [h1, h2]
  have hmem : key ∈ rt.rangeKeys (mapKeys pu.Query) := (hrt _).mem_iff.2 hk
  obtain ⟨url, h3, h4⟩ := scan_finding buf p o _ (rangeKeys_nodup rt hrt pu.RawQuery)
    ⟨pu.Query, targetURL pu method keep, [], []⟩ key d hmem hd
  exact ⟨url, by simpa [findingsFor] using h3, h4⟩

theorem withHeaders_parts (req : Request) (headers cth : Str) :
    (withHeaders req headers cth).URL = req.URL ∧ (withHeaders req headers cth).Body = req.Body ∧
      (withHeaders req headers cth).Method = req.Method := by
  unfold withHeaders
  split <;> exact ⟨rfl, rfl, rfl⟩

theorem targetURL_stripped (pu : URL) (method : Str)
    (hm : method = ascii "POST" ∨ method = ascii "PATCH") :
    (targetURL pu method false).RawQuery = [] ∧
      (targetURL pu method false).ForceQuery = pu.ForceQuery := by
  have hb : bodyMethod method = true := by
    rcases hm with h | h <;> subst h <;> decide
  unfold targetURL
  rw [if_pos ⟨hb, rfl⟩]
  exact ⟨rfl, rfl⟩

/-! ## reading JSON strings -/

theorem jsonChars_quote (s : Str) : jsonChars (0x22 :: s) = some ([], s) := by
  conv => lhs; unfold jsonChars
  simp

theorem jsonChars_plain (c : Byte) (s : Str) (h1 : c ≠ 0x22) (h2 : c ≠ 0x5C)
    (h3 : ¬ c < 0x20) :
    jsonChars (c :: s) = (jsonChars s).map (fun tr => (c :: tr.1, tr.2)) := by
  conv => lhs; unfold jsonChars
  simp only [h1, h2, h3, if_false]
  cases jsonChars s <;> rfl

theorem jsonChars_escape (e b : Byte) (s : Str) (h1 : e ≠ ch 'u')
    (h2 : jsonEscape e = some b) :
    jsonChars (0x5C :: e :: s) = (jsonChars s).map (fun tr => (b :: tr.1, tr.2)) := by
  conv => lhs; unfold jsonChars
  have h0 : ¬ (0x5C : Byte) = 0x22 := by decide
  simp only [h0, if_false, if_true, h1, h2]
  cases jsonChars s <;> rfl

theorem jsonChars_u (h1 h2 h3 h4 : Byte) (r : Nat) (s : Str)
    (hh : hex4 h1 h2 h3 h4 = some r) (hs : ¬ (0xD800 ≤ r ∧ r < 0xE000)) :
    jsonChars (0x5C :: ch 'u' :: h1 :: h2 :: h3 :: h4 :: s) =
      (jsonChars s).map (fun tr => (encodeRune r ++ tr.1, tr.2)) := by
  conv => lhs; unfold jsonChars
  have h0 : ¬ (0x5C : Byte) = 0x22 := by decide
  simp only [h0, if_false, if_true, hh, hs]
  cases jsonChars s <;> rfl

/-- The three shapes of what the encoder writes for an ASCII byte, each with what a JSON
reader needs to get the byte back. -/
theorem jsonAsciiByte_shape : ∀ c : Byte, c.val < 0x80 →
    (jsonAsciiByte c = [c] ∧ c ≠ 0x22 ∧ c ≠ 0x5C ∧ ¬ c < 0x20) ∨
    (jsonAsciiByte c = [0x5C, (jsonAsciiByte c).getD 1 0] ∧
      (jsonAsciiByte c).getD 1 0 ≠ ch 'u' ∧ jsonEscape ((jsonAsciiByte c).getD 1 0) = some c) ∨
    (jsonAsciiByte c =
        [0x5C, ch 'u', ch '0', ch '0', lowerhex (c.val / 16), lowerhex (c.val % 16)] ∧
      hex4 (ch '0') (ch '0') (lowerhex (c.val / 16)) (lowerhex (c.val % 16)) = some c.val ∧
      encodeRune c.val = [c]) := by
  decide!

theorem jsonChars_ascii (c : Byte) (hc : c.val < 0x80) (s : Str) :
    jsonChars (jsonAsciiByte c ++ s) = (jsonChars s).map (fun tr => (c :: tr.1, tr.2)) := by
  rcases jsonAsciiByte_shape c hc with ⟨h, h1, h2, h3⟩ | ⟨h, h1, h2⟩ | ⟨h, h1, h2⟩
  · rw [h]
    exact jsonChars_plain c s h1 h2 h3
  · rw [h]
    exact jsonChars_escape _ c s h1 h2
  · rw [h]
    have hs : ¬ (0xD800 ≤ c.val ∧ c.val < 0xE000) := by omega
    have := jsonChars_u _ _ _ _ c.val s h1 hs
    rw [h2] at this
    exact this

/-- What a successful decoding of a rune that starts with a non-ASCII byte says about
the bytes of the rune. -/
theorem DecodeRune_multibyte (c : Byte) (s : Str) (hc : ¬ c.val < 0x80)
    (hne : ¬ ((DecodeRuneInString (c :: s)).1 = RuneError ∧
      (DecodeRuneInString (c :: s)).2 = 1)) :
    (∃ b1 t, s = b1 :: t ∧ 0x80 ≤ b1.val ∧ (DecodeRuneInString (c :: s)).2 = 2 ∧
      (DecodeRuneInString (c :: s)).1 < 0x800) ∨
    (∃ b1 b2 t, s = b1 :: b2 :: t ∧ 0x80 ≤ b1.val ∧ 0x80 ≤ b2.val ∧
      (DecodeRuneInString (c :: s)).2 = 3 ∧
      (DecodeRuneInString (c :: s)).1 = (c.val % 16) * 4096 + (b1.val % 64) * 64 + b2.val % 64 ∧
      0xE0 ≤ c.val ∧ c.val < 0xF0 ∧ b1.val ≤ 0xBF ∧ b2.val ≤ 0xBF) ∨
    (∃ b1 b2 b3 t, s = b1 :: b2 :: b3 :: t ∧ 0x80 ≤ b1.val ∧ 0x80 ≤ b2.val ∧ 0x80 ≤ b3.val ∧
      (DecodeRuneInString (c :: s)).2 = 4 ∧ 0x10000 ≤ (DecodeRuneInString (c :: s)).1) := by
  generalize hD : DecodeRuneInString (c :: s) = D at hne ⊢
  unfold DecodeRuneInString at hD
  simp only [hc, if_false] at hD
  by_cases h1 : c.val < 0xC2 ∨ 0xF4 < c.val
  · simp only [h1, if_true] at hD
    subst hD
    exact absurd ⟨rfl, rfl⟩ hne
  · simp only [h1, if_false] at hD
    cases s with
    | nil =>
      simp only at hD
      subst hD
      exact absurd ⟨rfl, rfl⟩ hne
    | cons b1 t =>
      simp only at hD
      by_cases h2 : b1.val < (if c.val = 0xE0 then 0xA0 else if c.val = 0xF0 then 0x90 else 0x80) ∨
          (if c.val = 0xED then 0x9F else if c.val = 0xF4 then 0x8F else 0xBF) < b1.val
      · simp only [h2, if_true] at hD
        subst hD
        exact absurd ⟨rfl, rfl⟩ hne
      · simp only [h2, if_false] at hD
        have hb1 : 0x80 ≤ b1.val ∧ b1.val ≤ 0xBF ∧ (c.val = 0xF0 → 0x90 ≤ b1.val) := by
          split_ifs at h2 <;> omega
        by_cases h3 : c.val < 0xE0
        · simp only [h3, if_true] at hD
          subst hD
          left
          refine ⟨b1, t, rfl, hb1.1, rfl, ?_⟩
          show c.val % 32 * 64 + b1.val % 64 < 0x800
          omega
        · simp only [h3, if_false] at hD
          cases t with
          | nil =>
            simp only at hD
            subst hD
            exact absurd ⟨rfl, rfl⟩ hne
          | cons b2 t2 =>
            simp only at hD
            by_cases h4 : b2.val < 0x80 ∨ 0xBF < b2.val
            · simp only [h4, if_true] at hD
              subst hD
              exact absurd ⟨rfl, rfl⟩ hne
            · simp only [h4, if_false] at hD
              by_cases h5 : c.val < 0xF0
              · simp only [h5, if_true] at hD
                subst hD
                right; left
                exact ⟨b1, b2, t2, rfl, hb1.1, by omega, rfl, rfl, by omega, h5, hb1.2.1,
                  by omega⟩
              · simp only [h5, if_false] at hD
                cases t2 with
                | nil =>
                  simp only at hD
                  subst hD
                  exact absurd ⟨rfl, rfl⟩ hne
                | cons b3 t3 =>
                  simp only at hD
                  by_cases h6 : b3.val < 0x80 ∨ 0xBF < b3.val
                  · simp only [h6, if_true] at hD
                    subst hD
                    exact absurd ⟨rfl, rfl⟩ hne
                  · simp only [h6, if_false] at hD
                    subst hD
                    right; right
                    refine ⟨b1, b2, b3, t3, rfl, hb1.1, by omega, by omega, rfl, ?_⟩
                    show 0x10000 ≤ c.val % 8 * 262144 + b1.val % 64 * 4096 + b2.val % 64 * 64 +
                      b3.val % 64
                    have := hb1.2.2
                    omega

theorem highByte_plain : ∀ c : Byte, ¬ c.val < 0x80 → c ≠ 0x22 ∧ c ≠ 0x5C ∧ ¬ c < 0x20 := by
  decide!

theorem appendStringLoop_ascii (cp : Bool) (c : Byte) (s : Str) (hc : c.val < 0x80) :
    appendStringLoop 0 cp (c :: s) = jsonAsciiByte c ++ appendStringLoop 0 true s := by
  simp only [appendStringLoop, hc, if_true]

theorem appendStringLoop_invalid (cp : Bool) (c : Byte) (s : Str) (hc : ¬ c.val < 0x80)
    (he : (DecodeRuneInString (c :: s)).1 = RuneError ∧ (DecodeRuneInString (c :: s)).2 = 1) :
    appendStringLoop 0 cp (c :: s) =
      0x5C :: ch 'u' :: ch 'f' :: ch 'f' :: ch 'f' :: ch 'd' :: appendStringLoop 0 true s := by
  simp only [appendStringLoop, hc, if_false, he, and_self, if_true]
  rfl

theorem appendStringLoop_separator (cp : Bool) (c : Byte) (s : Str) (hc : ¬ c.val < 0x80)
    (he : ¬ ((DecodeRuneInString (c :: s)).1 = RuneError ∧ (DecodeRuneInString (c :: s)).2 = 1))
    (hls : (DecodeRuneInString (c :: s)).1 = 0x2028 ∨ (DecodeRuneInString (c :: s)).1 = 0x2029) :
    appendStringLoop 0 cp (c :: s) =
      0x5C :: ch 'u' :: ch '2' :: ch '0' :: ch '2' ::
        lowerhex ((DecodeRuneInString (c :: s)).1 % 16) ::
        appendStringLoop ((DecodeRuneInString (c :: s)).2 - 1) false s := by
  simp only [appendStringLoop, hc, if_false, he, hls, if_true]
  rfl

theorem appendStringLoop_rune (cp : Bool) (c : Byte) (s : Str) (hc : ¬ c.val < 0x80)
    (he : ¬ ((DecodeRuneInString (c :: s)).1 = RuneError ∧ (DecodeRuneInString (c :: s)).2 = 1))
    (hls : ¬ ((DecodeRuneInString (c :: s)).1 = 0x2028 ∨
      (DecodeRuneInString (c :: s)).1 = 0x2029)) :
    appendStringLoop 0 cp (c :: s) =
      c :: appendStringLoop ((DecodeRuneInString (c :: s)).2 - 1) true s := by
  simp only [appendStringLoop, hc, if_false, he, hls]

theorem replaceInvalidLoop_ascii (c : Byte) (s : Str) (hc : c.val < 0x80) :
    replaceInvalidLoop 0 (c :: s) = c :: replaceInvalidLoop 0 s := by
  simp only [replaceInvalidLoop, hc, if_true]

theorem replaceInvalidLoop_invalid (c : Byte) (s : Str) (hc : ¬ c.val < 0x80)
    (he : (DecodeRuneInString (c :: s)).1 = RuneError ∧ (DecodeRuneInString (c :: s)).2 = 1) :
    replaceInvalidLoop 0 (c :: s) = 0xEF :: 0xBF :: 0xBD :: replaceInvalidLoop 0 s := by
  simp only [replaceInvalidLoop, hc, if_false, he, and_self, if_true]
  rfl

theorem replaceInvalidLoop_rune (c : Byte) (s : Str) (hc : ¬ c.val < 0x80)
    (he : ¬ ((DecodeRuneInString (c :: s)).1 = RuneError ∧
      (DecodeRuneInString (c :: s)).2 = 1)) :
    replaceInvalidLoop 0 (c :: s) =
      c :: replaceInvalidLoop ((DecodeRuneInString (c :: s)).2 - 1) s := by
  simp only [replaceInvalidLoop, hc, if_false, he]

/-- A JSON reader gets back from the text the encoder writes for a string the string
itself, with U+FFFD in place of every byte that is not part of a well-formed rune. -/
theorem jsonChars_appendStringLoop (s : Str) :
    ∀ (n : Nat) (copy : Bool) (rest : Str),
      (copy = true → ∀ b ∈ s.take n, 0x80 ≤ b.val) →
      jsonChars (appendStringLoop n copy s ++ 0x22 :: rest) =
        some (if copy = true then replaceInvalidLoop n s else replaceInvalidLoop 0 (s.drop n),
          rest) := by
  induction s with
  | nil =>
    intro n copy rest _
    cases n <;> cases copy <;> simp [appendStringLoop, replaceInvalidLoop, jsonChars_quote]
  | cons c s ih =>
    intro n copy rest hb
    cases n with
    | succ m =>
      cases copy with
      | false =>
        have := ih m false rest (by intro h; cases h)
        simpa [appendStringLoop, replaceInvalidLoop] using this
      | true =>
        have hc : 0x80 ≤ c.val := hb rfl c (by simp)
        have hrest : ∀ b ∈ s.take m, 0x80 ≤ b.val := by
          intro b hmem
          exact hb rfl b (by simp [hmem])
        obtain ⟨p1, p2, p3⟩ := highByte_plain c (by omega)
        have := ih m true rest (fun _ => hrest)
        have ha : appendStringLoop (m + 1) true (c :: s) ++ 0x22 :: rest =
            c :: (appendStringLoop m true s ++ 0x22 :: rest) := by
          simp [appendStringLoop]
        rw [ha, jsonChars_plain c _ p1 p2 p3, this]
        rfl
    | zero =>
      have hR : (if copy = true then replaceInvalidLoop 0 (c :: s)
          else replaceInvalidLoop 0 ((c :: s).drop 0)) = replaceInvalidLoop 0 (c :: s) := by
        cases copy <;> rfl
      rw [hR]
      by_cases hc : c.val < 0x80
      · have := ih 0 true rest (by intro _ b hmem; simp at hmem)
        rw [appendStringLoop_ascii copy c s hc, replaceInvalidLoop_ascii c s hc,
          List.append_assoc, jsonChars_ascii c hc, this]
        rfl
      · by_cases he : (DecodeRuneInString (c :: s)).1 = RuneError ∧
            (DecodeRuneInString (c :: s)).2 = 1
        · have := ih 0 true rest (by intro _ b hmem; simp at hmem)
          rw [appendStringLoop_invalid copy c s hc he, replaceInvalidLoop_invalid c s hc he]
          simp only [List.cons_append]
          rw [jsonChars_u _ _ _ _ 0xFFFD _ (by decide) (by decide), this]
          rfl
        · obtain ⟨p1, p2, p3⟩ := highByte_plain c hc
          rw [replaceInvalidLoop_rune c s hc he]
          rcases DecodeRune_multibyte c s hc he with ⟨b1, t, hs, h1, hsz, hlt⟩ |
            ⟨b1, b2, t, hs, h1, h2, hsz, hval, hc1, hc2, h3, h4⟩ |
            ⟨b1, b2, b3, t, hs, h1, h2, h3, hsz, hge⟩
          · have hnot : ¬ ((DecodeRuneInString (c :: s)).1 = 0x2028 ∨
                (DecodeRuneInString (c :: s)).1 = 0x2029) := by omega
            have := ih 1 true rest (by
              intro _ b hmem
              rw [hs] at hmem
              simp at hmem
              rw [hmem]; exact h1)
            have hk : (DecodeRuneInString (c :: s)).2 - 1 = 1 := by omega
            rw [appendStringLoop_rune copy c s hc he hnot, hk, List.cons_append,
              jsonChars_plain c _ p1 p2 p3, this]
            rfl
          · have hk : (DecodeRuneInString (c :: s)).2 - 1 = 2 := by omega
            by_cases hls : (DecodeRuneInString (c :: s)).1 = 0x2028 ∨
                (DecodeRuneInString (c :: s)).1 = 0x2029
            · have := ih 2 false rest (by intro h; cases h)
              rw [appendStringLoop_separator copy c s hc he hls, hk]
              simp only [List.cons_append]
              have hcv : c.val = 0xE2 ∧ b1.val = 0x80 := by
                rw [hval] at hls
                omega
              have hce : c = 0xE2 := Fin.ext hcv.1
              have hb1e : b1 = 0x80 := Fin.ext hcv.2
              rcases hls with hl | hl
              · have hb2e : b2 = 0xA8 := by
                  rw [hval] at hl
                  exact Fin.ext (by omega)
                rw [hl, jsonChars_u _ _ _ _ 0x2028 _ (by decide) (by decide), this, hs, hce,
                  hb1e, hb2e]
                rfl
              · have hb2e : b2 = 0xA9 := by
                  rw [hval] at hl
                  exact Fin.ext (by omega)
                rw [hl, jsonChars_u _ _ _ _ 0x2029 _ (by decide) (by decide), this, hs, hce,
                  hb1e, hb2e]
                rfl
            · have := ih 2 true rest (by
                intro _ b hmem
                rw [hs] at hmem
                simp at hmem
                rcases hmem with hmem | hmem
                · rw [hmem]; exact h1
                · rw [hmem]; exact h2)
              rw [appendStringLoop_rune copy c s hc he hls, hk, List.cons_append,
                jsonChars_plain c _ p1 p2 p3, this]
              rfl
          · have hnot : ¬ ((DecodeRuneInString (c :: s)).1 = 0x2028 ∨
                (DecodeRuneInString (c :: s)).1 = 0x2029) := by omega
            have := ih 3 true rest (by
              intro _ b hmem
              rw [hs] at hmem
              simp at hmem
              rcases hmem with hmem | hmem | hmem
              · rw [hmem]; exact h1
              · rw [hmem]; exact h2
              · rw [hmem]; exact h3)
            have hk : (DecodeRuneInString (c :: s)).2 - 1 = 3 := by omega
            rw [appendStringLoop_rune copy c s hc he hnot, hk, List.cons_append,
              jsonChars_plain c _ p1 p2 p3, this]
            rfl

theorem jsonString_appendString (s rest : Str) :
    jsonString (appendString s ++ rest) = some (replaceInvalid s, rest) := by
  have h := jsonChars_appendStringLoop s 0 true rest (by intro _ b hmem; simp at hmem)
  have ha : appendString s ++ rest = 0x22 :: (appendStringLoop 0 true s ++ 0x22 :: rest) := by
    unfold appendString
    have : ch '"' = (0x22 : Byte) := by decide
    simp [this]
  rw [ha]
  unfold jsonString
  simp only [if_true]
  rw [h]
  rfl

theorem replaceInvalidLoop_of_valid (s : Str) :
    ∀ n, validLoop n s = true → replaceInvalidLoop n s = s := by
  induction s with
  | nil => intro n _; cases n <;> rfl
  | cons c s ih =>
    intro n hv
    cases n with
    | succ m =>
      simp only [validLoop] at hv
      simp only [replaceInvalidLoop, ih m hv]
    | zero =>
      by_cases hc : c.val < 0x80
      · simp only [validLoop, hc, if_true] at hv
        rw [replaceInvalidLoop_ascii c s hc, ih 0 hv]
      · by_cases he : (DecodeRuneInString (c :: s)).1 = RuneError ∧
            (DecodeRuneInString (c :: s)).2 = 1
        · simp [validLoop, hc, he] at hv
        · simp only [validLoop, hc, if_false, he] at hv
          rw [replaceInvalidLoop_rune c s hc he, ih _ hv]

/-- On well-formed UTF-8 nothing is replaced. -/
theorem replaceInvalid_of_valid (s : Str) (h : ValidString s = true) : replaceInvalid s = s :=
  replaceInvalidLoop_of_valid s 0 h

theorem intercalate_cons_cons (sep : Byte) (x y : Str) (r : List Str) :
    [sep].intercalate (x :: y :: r) = x ++ sep :: [sep].intercalate (y :: r) := by
  simp [List.intercalate]

theorem intercalate_single (sep : Byte) (x : Str) : [sep].intercalate [x] = x := by
  simp [List.intercalate]

/-- Reading one member `"key":"value"` followed by more text. -/
theorem jsonString_member (k v rest : Str) :
    jsonString (jsonMember k v ++ rest) =
      some (replaceInvalid k, ch ':' :: (appendString v ++ rest)) := by
  have : jsonMember k v ++ rest = appendString k ++ (ch ':' :: (appendString v ++ rest)) := by
    simp [jsonMember]
  rw [this, jsonString_appendString]

theorem jsonMembers_text (ms : List (Str × Str)) (hne : ms ≠ []) :
    ∀ fuel, ms.length ≤ fuel →
      jsonMembers fuel ([ch ','].intercalate (ms.map (fun kv => jsonMember kv.1 kv.2)) ++
          [ch (Char.ofNat 0x7d)]) =
        some (ms.map (fun kv => (replaceInvalid kv.1, replaceInvalid kv.2))) := by
  induction ms with
  | nil => exact absurd rfl hne
  | cons m ms ih =>
    intro fuel hf
    cases fuel with
    | zero => simp at hf
    | succ f =>
      cases ms with
      | nil =>
        simp only [List.map_cons, List.map_nil, intercalate_single]
        unfold jsonMembers
        simp only [jsonString_member, jsonString_appendString, if_true, and_self]
      | cons m2 rest =>
        have hrec := ih (by simp) f (by simpa using hf)
        simp only [List.map_cons, intercalate_cons_cons, List.append_assoc,
          List.cons_append] at hrec ⊢
        unfold jsonMembers
        simp only [jsonString_member, jsonString_appendString, if_true]
        have hd : ¬ (ch ',' = ch (Char.ofNat 0x7d) ∧
            ([ch ','].intercalate (List.map (fun kv => jsonMember kv.1 kv.2) (m2 :: rest)) ++
              [ch (Char.ofNat 0x7d)]) = []) := by
          intro h
          exact absurd h.1 (by decide)
        simp only [List.map_cons] at hd
        simp only [hd, if_false, hrec]

theorem member_length (k v : Str) : 1 ≤ (jsonMember k v).length := by
  simp [jsonMember, appendString]

theorem intercalate_length (ms : List (Str × Str)) :
    ms.length ≤ ([ch ','].intercalate (ms.map (fun kv => jsonMember kv.1 kv.2))).length := by
  induction ms with
  | nil => simp
  | cons m ms ih =>
    cases ms with
    | nil =>
      simp only [List.map_cons, List.map_nil, intercalate_single, List.length_singleton]
      exact member_length _ _
    | cons m2 rest =>
      simp only [List.map_cons, intercalate_cons_cons, List.length_append, List.length_cons]
        at ih ⊢
      omega

/-- Reading the text of a JSON object of string members gives the members back, in order,
with U+FFFD in place of every byte that is not part of a well-formed rune. -/
theorem parseFlatObject_jsonObject (ms : List (Str × Str)) :
    parseFlatObject (jsonObject ms) =
      some (ms.map (fun kv => (replaceInvalid kv.1, replaceInvalid kv.2))) := by
  unfold jsonObject parseFlatObject
  simp only [if_true]
  cases ms with
  | nil => simp [List.intercalate]
  | cons m ms =>
    have hne : ¬ ([ch ','].intercalate (List.map (fun kv => jsonMember kv.1 kv.2) (m :: ms)) ++
        [ch (Char.ofNat 0x7d)] = [ch (Char.ofNat 0x7d)]) := by
      intro h
      have hl := congrArg List.length h
      have := intercalate_length (m :: ms)
      simp only [List.length_append, List.length_singleton, List.length_cons] at hl this
      omega
    rw [if_neg hne]
    apply jsonMembers_text (m :: ms) (by simp)
    have := intercalate_length (m :: ms)
    simp only [List.length_append, List.length_singleton]
    omega

/-! ## Claims about the reflection check -/

/-- C1: whenever a response body was read, a query key whose value decodes without error
gets exactly one finding line, and that line says "reflected" when the decoded value
occurs in the body as a contiguous run of the same bytes and "not found" otherwise. -/
theorem processURL_reflected_iff_substring (rt : Runtime)
    (hrt : ∀ l, (rt.rangeKeys l).Perm l) (u : Str) (o : Bool) (method : Str) (keep : Bool)
    (headers p ct buf : Str) (pu : URL) (hp : Parse u = some pu)
    (h : (processURL rt u o method keep headers p ct).response = some buf)
    (key : Str) (hk : key ∈ mapKeys pu.Query) (d : Str)
    (hd : QueryUnescape (Values.Get pu.Query key) = .ok d) :
    ((∃ a b, buf = a ++ d ++ b) →
      ∃ url, findingsFor key (processURL rt u o method keep headers p ct).stdout =
        [Event.reflected key d url p]) ∧
    ((¬ ∃ a b, buf = a ++ d ++ b) →
      ∃ url, findingsFor key (processURL rt u o method keep headers p ct).stdout =
        [Event.notFound key d url]) := by
  obtain ⟨url, h1, _⟩ := processURL_finding rt hrt u o method keep headers p ct buf pu hp h key hk d hd
  constructor
  · intro hin
    have hc : Contains buf d = true := (Contains_iff buf d).2 hin
    exact ⟨url, by rw [h1]; simp [hc]⟩
  · intro hin
    have hc : ¬ Contains buf d = true := fun hc => hin ((Contains_iff buf d).1 hc)
    exact ⟨url, by rw [h1]; simp [hc]⟩

/-- C1 on the example of the specification: with the body `hello world` the query
`?q=world` is reported reflected and `?q=xyz` is reported not found. -/
theorem processURL_reflected_iff_substring_witness :
    (∃ url, findingsFor (ascii "q")
        (processURL (forwardRuntime (ascii "hello world")) (ascii "http://x/?q=world") false
          (ascii "GET") false [] defaultPayload (ascii "form")).stdout =
        [Event.reflected (ascii "q") (ascii "world") url defaultPayload]) ∧
    (∃ url, findingsFor (ascii "q")
        (processURL (forwardRuntime (ascii "hello world")) (ascii "http://x/?q=xyz") false
          (ascii "GET") false [] defaultPayload (ascii "form")).stdout =
        [Event.notFound (ascii "q") (ascii "xyz") url]) :=
  ⟨(processURL_reflected_iff_substring (forwardRuntime (ascii "hello world"))
      (fun l => List.Perm.refl l) (ascii "http://x/?q=world") false (ascii "GET") false []
      defaultPayload (ascii "form") (ascii "hello world")
      ⟨ascii "http://x/", false, ascii "q=world", []⟩ (by decide) (by decide)
      (ascii "q") (by decide) (ascii "world") (by decide)).1
      ⟨ascii "hello ", [], by decide⟩,
   (processURL_reflected_iff_substring (forwardRuntime (ascii "hello world"))
      (fun l => List.Perm.refl l) (ascii "http://x/?q=xyz") false (ascii "GET") false []
      defaultPayload (ascii "form") (ascii "hello world")
      ⟨ascii "http://x/", false, ascii "q=xyz", []⟩ (by decide) (by decide)
      (ascii "q") (by decide) (ascii "xyz") (by decide)).2
      (fun hin => absurd ((Contains_iff _ _).2 hin) (by decide))⟩

/-- C2, refuted as stated: for `http://x/?q=` and an empty response body the key `q`,
whose decoded value is empty, gets a "reflected" line, and the injected URL is written
to the output file. -/
theorem empty_value_reported_reflected_example :
    (processURL (forwardRuntime []) (ascii "http://x/?q=") true (ascii "GET") false []
        defaultPayload (ascii "form")).stdout =
      [Event.reflected (ascii "q") []
        (ascii "http://x/?q=%27%22%2500%3E%3Ch1%3Eakira%3C%2Fh1%3E") defaultPayload] ∧
    (processURL (forwardRuntime []) (ascii "http://x/?q=") true (ascii "GET") false []
        defaultPayload (ascii "form")).file =
      [ascii "http://x/?q=%27%22%2500%3E%3Ch1%3Eakira%3C%2Fh1%3E\n"] := by
  decide

/-- C2 as amended: whenever a response body was read, a query key whose decoded value is
the empty string gets exactly one finding line, a "reflected" one (the empty string occurs
in every body), and with an output file its injected URL is written to the file. -/
theorem empty_value_always_reflected (rt : Runtime)
    (hrt : ∀ l, (rt.rangeKeys l).Perm l) (u : Str) (o : Bool) (method : Str) (keep : Bool)
    (headers p ct buf : Str) (pu : URL) (hp : Parse u = some pu)
    (h : (processURL rt u o method keep headers p ct).response = some buf)
    (key : Str) (hk : key ∈ mapKeys pu.Query)
    (hd : QueryUnescape (Values.Get pu.Query key) = .ok []) :
    ∃ url, findingsFor key (processURL rt u o method keep headers p ct).stdout =
        [Event.reflected key [] url p] ∧
      (o = true → url ++ [ch '\n'] ∈ (processURL rt u o method keep headers p ct).file) := by
  obtain ⟨url, h1, h2⟩ :=
    processURL_finding rt hrt u o method keep headers p ct buf pu hp h key hk [] hd
  exact ⟨url, by rw [h1]; simp [Contains_nil], h2 (Contains_nil buf)⟩

/-- C2 as amended, on `http://x/?q` with the body `hello`. -/
theorem empty_value_always_reflected_witness :
    ∃ url, findingsFor (ascii "q")
        (processURL (forwardRuntime (ascii "hello")) (ascii "http://x/?q") true (ascii "GET")
          false [] defaultPayload (ascii "form")).stdout =
        [Event.reflected (ascii "q") [] url defaultPayload] ∧
      (true = true → url ++ [ch '\n'] ∈
        (processURL (forwardRuntime (ascii "hello")) (ascii "http://x/?q") true (ascii "GET")
          false [] defaultPayload (ascii "form")).file) :=
  empty_value_always_reflected (forwardRuntime (ascii "hello")) (fun l => List.Perm.refl l)
    (ascii "http://x/?q") true (ascii "GET") false [] defaultPayload (ascii "form")
    (ascii "hello") ⟨ascii "http://x/", false, ascii "q", []⟩ (by decide) (by decide)
    (ascii "q") (by decide) (by decide)

/-- C9: for POST or PATCH with type `xml` and a URL that parses and has a query key,
`processURL` prints the "XML conversion is not implemented" line and returns: no request
is built or sent, no response is read, nothing else is printed and nothing is written to
the file. -/
theorem xml_stops_before_request (rt : Runtime) (hrt : ∀ l, (rt.rangeKeys l).Perm l)
    (u : Str) (o : Bool) (method : Str) (keep : Bool) (headers p : Str) (pu : URL)
    (hp : Parse u = some pu) (hk : mapKeys pu.Query ≠ [])
    (hm : method = ascii "POST" ∨ method = ascii "PATCH") :
    processURL rt u o method keep headers p (ascii "xml") =
      ⟨[Event.xmlNotImplemented], [], none, none⟩ := by
  have hlen : ¬ (rt.rangeKeys (mapKeys pu.Query)).length = 0 := by
    rw [(hrt _).length_eq]
    intro h0
    exact hk (List.length_eq_zero.1 h0)
  have hb : bodyMethod method = true := by
    rcases hm with h | h <;> subst h <;> decide
  have hx : encodeBody (ascii "xml") pu.Query (rt.rangeKeys (mapKeys pu.Query)) = none := by
    unfold encodeBody
    rw [if_neg (by decide), if_pos rfl]
  unfold processURL
  rw [hp]
  simp only [hlen, if_false, hb, if_true, hx]

/-- C9 on `http://x/?a=1` with method PATCH, `keep` set and a custom header. -/
theorem xml_stops_before_request_witness :
    processURL (forwardRuntime (ascii "1")) (ascii "http://x/?a=1") true (ascii "PATCH") true
        (ascii "X-A: b") defaultPayload (ascii "xml") =
      ⟨[Event.xmlNotImplemented], [], none, none⟩ :=
  xml_stops_before_request (forwardRuntime (ascii "1")) (fun l => List.Perm.refl l)
    (ascii "http://x/?a=1") true (ascii "PATCH") true (ascii "X-A: b") defaultPayload
    ⟨ascii "http://x/", false, ascii "a=1", []⟩ (by decide) (by decide) (Or.inr rfl)

/-! ## Claims about the decoded value and the injected URL -/

/-- C3, the code at its failing inputs: the raw value `%2541` percent-decodes once to
`%41` and `a%2Bb` to `a+b`, but `processURL` works with `A` and with `a b`: `URL.Query`
has decoded the value already and the loop decodes it a second time. -/
theorem decodedValue_is_decoded_twice :
    QueryUnescape (ascii "%2541") = .ok (ascii "%41") ∧
    (processURL (forwardRuntime (ascii "A")) (ascii "http://x/?q=%2541") false (ascii "GET")
        false [] (ascii "P") (ascii "form")).stdout =
      [Event.reflected (ascii "q") (ascii "A") (ascii "http://x/?q=AP") (ascii "P")] ∧
    QueryUnescape (ascii "a%2Bb") = .ok (ascii "a+b") ∧
    (processURL (forwardRuntime (ascii "a+b")) (ascii "http://x/?q=a%2Bb") false (ascii "GET")
        false [] (ascii "P") (ascii "form")).stdout =
      [Event.notFound (ascii "q") (ascii "a b") (ascii "http://x/?q=a%2Bb")] := by
  decide

/-- C4, the code at its failing input: for `http://x/?a=1&b=2` with both keys reflected
and `a` visited first, the injected URL printed for `b` is `http://x/?a=1P&b=2P`: it
carries the payload of the injection of `a`, whose value in the original URL is `1`. -/
theorem injected_url_carries_earlier_payload :
    (processURL (forwardRuntime (ascii "12")) (ascii "http://x/?a=1&b=2") true (ascii "GET")
        false [] (ascii "P") (ascii "form")).stdout =
      [Event.reflected (ascii "a") (ascii "1") (ascii "http://x/?a=1P&b=2") (ascii "P"),
       Event.reflected (ascii "b") (ascii "2") (ascii "http://x/?a=1P&b=2P") (ascii "P")] ∧
    (Parse (ascii "http://x/?a=1P&b=2P")).map (fun pu => Values.values pu.Query (ascii "a")) =
      some [ascii "1P"] ∧
    (Parse (ascii "http://x/?a=1&b=2")).map (fun pu => Values.values pu.Query (ascii "a")) =
      some [ascii "1"] := by
  decide

/-- C10, the code at its failing input: for `http://x/?a=1&b=2` with both keys reflected,
visiting `a` first writes the injected URLs `?a=1P&b=2` and `?a=1P&b=2P`, visiting `b`
first writes `?a=1&b=2P` and `?a=1P&b=2P`; the two sets differ. -/
theorem injected_urls_depend_on_key_order :
    (processURL (forwardRuntime (ascii "12")) (ascii "http://x/?a=1&b=2") true (ascii "GET")
        false [] (ascii "P") (ascii "form")).file =
      [ascii "http://x/?a=1P&b=2\n", ascii "http://x/?a=1P&b=2P\n"] ∧
    (processURL (backwardRuntime (ascii "12")) (ascii "http://x/?a=1&b=2") true (ascii "GET")
        false [] (ascii "P") (ascii "form")).file =
      [ascii "http://x/?a=1&b=2P\n", ascii "http://x/?a=1P&b=2P\n"] ∧
    ascii "http://x/?a=1&b=2P\n" ∉
      (processURL (forwardRuntime (ascii "12")) (ascii "http://x/?a=1&b=2") true (ascii "GET")
        false [] (ascii "P") (ascii "form")).file ∧
    (forwardRuntime (ascii "12")).rangeKeys [ascii "a", ascii "b"] = [ascii "a", ascii "b"] ∧
    (backwardRuntime (ascii "12")).rangeKeys [ascii "a", ascii "b"] = [ascii "b", ascii "a"] := by
  decide

/-- C5: for every "reflected" line a run prints, the payload in the line is the configured
payload, the URL in the line parses, and reading the key from its query gives the
decoded value followed by the payload, byte for byte, whatever bytes the payload holds. -/
theorem injected_value_round_trips (rt : Runtime) (u : Str) (o : Bool) (method : Str)
    (keep : Bool) (headers p ct : Str) (key d url p2 : Str)
    (h : Event.reflected key d url p2 ∈ (processURL rt u o method keep headers p ct).stdout) :
    p2 = p ∧ ∃ pu, Parse url = some pu ∧ Values.Get pu.Query key = d ++ p :=
  processURL_roundTrips rt u o method keep headers p ct key d url p2 h

/-- C5 on `http://x/?q=world` with the body `hello world` and the default payload. -/
theorem injected_value_round_trips_witness :
    defaultPayload = defaultPayload ∧
    ∃ pu, Parse (ascii "http://x/?q=world%27%22%2500%3E%3Ch1%3Eakira%3C%2Fh1%3E") = some pu ∧
      Values.Get pu.Query (ascii "q") = ascii "world" ++ defaultPayload :=
  injected_value_round_trips (forwardRuntime (ascii "hello world")) (ascii "http://x/?q=world")
    true (ascii "GET") false [] defaultPayload (ascii "form") (ascii "q") (ascii "world")
    (ascii "http://x/?q=world%27%22%2500%3E%3Ch1%3Eakira%3C%2Fh1%3E") defaultPayload (by decide)

/-! ## Claims about the request -/

/-- C6, refuted as stated: for `http://x/?k=%FFz` the JSON body carries for `k` the
value U+FFFD `z`, not the first value of `k`, which is the byte `0xFF` and `z`; for
`http://x/?%FF=1&%FE=2` the two distinct keys give the same member name twice. -/
theorem json_member_is_not_the_query_value :
    ((processURL (forwardRuntime []) (ascii "http://x/?k=%FFz") false (ascii "POST") false []
        defaultPayload (ascii "json")).sent).map Request.Body =
      some (some (ascii "\x7b\"k\":\"\\ufffdz\"\x7d")) ∧
    parseFlatObject (ascii "\x7b\"k\":\"\\ufffdz\"\x7d") =
      some [(ascii "k", [0xEF, 0xBF, 0xBD, ch 'z'])] ∧
    (Parse (ascii "http://x/?k=%FFz")).map (fun pu => Values.Get pu.Query (ascii "k")) =
      some [0xFF, ch 'z'] ∧
    ((processURL (forwardRuntime []) (ascii "http://x/?%FF=1&%FE=2") false (ascii "POST") false
        [] defaultPayload (ascii "json")).sent).map Request.Body =
      some (some (ascii "\x7b\"\\ufffd\":\"2\",\"\\ufffd\":\"1\"\x7d")) ∧
    parseFlatObject (ascii "\x7b\"\\ufffd\":\"2\",\"\\ufffd\":\"1\"\x7d") =
      some [([0xEF, 0xBF, 0xBD], ascii "2"), ([0xEF, 0xBF, 0xBD], ascii "1")] ∧
    (Parse (ascii "http://x/?%FF=1&%FE=2")).map (fun pu => mapKeys pu.Query) =
      some [[0xFF], [0xFE]] := by
  decide

/-- C6 as amended: for POST or PATCH with type `json` and `keep` unset, and a URL that
parses and has a query key, a request is built and handed to the client; its target has
an empty query and its `Content-Type` is `application/json` alone; its body is a JSON
object in compact form which, read back, has one string member per distinct query key
in the order of the sorted keys, name and value being the key and its first value with
U+FFFD in place of every byte that is not part of well-formed UTF-8; so when the keys and
their first values are well-formed UTF-8 the members are exactly the keys with their
first values. -/
theorem json_request_reads_back (rt : Runtime) (hrt : ∀ l, (rt.rangeKeys l).Perm l) (u : Str)
    (o : Bool) (method headers p : Str) (pu : URL) (hp : Parse u = some pu)
    (hk : mapKeys pu.Query ≠ []) (hm : method = ascii "POST" ∨ method = ascii "PATCH") :
    ∃ req body, (processURL rt u o method false headers p (ascii "json")).sent = some req ∧
      req.URL.RawQuery = [] ∧ req.URL.ForceQuery = false ∧
      req.Body = some body ∧
      body = jsonObject
        ((sortStrings (mapKeys pu.Query)).map (fun k => (k, Values.Get pu.Query k))) ∧
      parseFlatObject body = some ((sortStrings (mapKeys pu.Query)).map
        (fun k => (replaceInvalid k, replaceInvalid (Values.Get pu.Query k)))) ∧
      ((∀ k ∈ mapKeys pu.Query,
          ValidString k = true ∧ ValidString (Values.Get pu.Query k) = true) →
        parseFlatObject body =
          some ((sortStrings (mapKeys pu.Query)).map (fun k => (k, Values.Get pu.Query k)))) ∧
      (sortStrings (mapKeys pu.Query)).Nodup ∧
      (∀ k, k ∈ sortStrings (mapKeys pu.Query) ↔ k ∈ mapKeys pu.Query) ∧
      Header.Values req.Header (ascii "Content-Type") = [ascii "application/json"] := by
  have he : encodeBody (ascii "json") pu.Query (rt.rangeKeys (mapKeys pu.Query)) =
      some (some (jsonBody pu.Query (rt.rangeKeys (mapKeys pu.Query))),
        ascii "application/json") := by
    unfold encodeBody
    rw [if_pos rfl]
  have hs := processURL_sent rt hrt u o method false headers p (ascii "json") pu hp hk hm _ _ he
  obtain ⟨hq, hf⟩ := targetURL_stripped pu method hm
  have hn : (rt.rangeKeys (mapKeys pu.Query)).Nodup := rangeKeys_nodup rt hrt pu.RawQuery
  have hread := parseFlatObject_jsonObject
    ((sortStrings (mapKeys pu.Query)).map (fun k => (k, Values.Get pu.Query k)))
  rw [List.map_map] at hread
  refine ⟨_, _, hs, ?_, ?_, ?_, rfl, hread, ?_, ?_, ?_, ?_⟩
  · rw [(withHeaders_parts _ _ _).1]
    exact hq
  · rw [(withHeaders_parts _ _ _).1]
    show ((targetURL pu method false).ForceQuery && (targetURL pu method false).RawQuery.isEmpty)
      = false
    rw [hf, ForceQuery_of_keys u pu hp hk]
    rfl
  · rw [(withHeaders_parts _ _ _).2.1]
    show some (jsonBody pu.Query (rt.rangeKeys (mapKeys pu.Query))) = _
    rw [jsonBody_eq pu.Query (mapKeys pu.Query) _ hn (hrt _)]
  · intro hv
    rw [hread]
    congr 1
    apply List.map_congr_left
    intro k hmem
    have hk2 : k ∈ mapKeys pu.Query := (sortStrings_perm _).mem_iff.1 hmem
    obtain ⟨h1, h2⟩ := hv k hk2
    show (replaceInvalid k, replaceInvalid (Values.Get pu.Query k)) = (k, Values.Get pu.Query k)
    rw [replaceInvalid_of_valid k h1, replaceInvalid_of_valid _ h2]
  · exact (sortStrings_perm _).nodup_iff.2 (ParseQuery_nodup _)
  · intro k
    exact (sortStrings_perm _).mem_iff
  · exact (withHeaders_content_type _ rfl headers _ (by decide)).1

/-- C6 as amended, on the example of the specification: for `http://x/?a=1&b=2`,
whichever key is visited first, the body is `{"a":"1","b":"2"}` and reads back as the
members `a` with `1` and `b` with `2`. -/
theorem json_request_reads_back_witness :
    ∃ req, (processURL (backwardRuntime (ascii "12")) (ascii "http://x/?a=1&b=2") false
        (ascii "POST") false (ascii "content-type: text/plain") defaultPayload
        (ascii "json")).sent = some req ∧
      req.URL.RawQuery = [] ∧ req.URL.ForceQuery = false ∧
      req.Body = some (ascii "\x7b\"a\":\"1\",\"b\":\"2\"\x7d") ∧
      parseFlatObject (ascii "\x7b\"a\":\"1\",\"b\":\"2\"\x7d") =
        some [(ascii "a", ascii "1"), (ascii "b", ascii "2")] ∧
      Header.Values req.Header (ascii "Content-Type") = [ascii "application/json"] := by
  obtain ⟨req, body, h1, h2, h3, h4, h5, _, h7, _, _, h10⟩ :=
    json_request_reads_back (backwardRuntime (ascii "12")) (fun l => List.reverse_perm l)
      (ascii "http://x/?a=1&b=2") false (ascii "POST") (ascii "content-type: text/plain")
      defaultPayload ⟨ascii "http://x/", false, ascii "a=1&b=2", []⟩ (by decide) (by decide)
      (Or.inl rfl)
  have hb : body = ascii "\x7b\"a\":\"1\",\"b\":\"2\"\x7d" := h5.trans (by decide)
  have hv := h7 (by decide)
  rw [hb] at h4 hv
  exact ⟨req, h1, h2, h3, h4, hv.trans (by decide), h10⟩

/-- C7, refuted as stated: for `http://x/?a=1&a=2` the form body of the POST request is
`a=1`; the second value of `a` is not in it. -/
theorem form_body_drops_later_values :
    ((processURL (forwardRuntime []) (ascii "http://x/?a=1&a=2") false (ascii "POST") false []
        defaultPayload (ascii "form")).sent).map Request.Body = some (some (ascii "a=1")) ∧
    (Parse (ascii "http://x/?a=1&a=2")).map (fun pu => Values.values pu.Query (ascii "a")) =
      some [ascii "1", ascii "2"] ∧
    Values.values (ParseQuery (ascii "a=1")) (ascii "a") = [ascii "1"] := by
  decide

/-- C7 as amended: for POST or PATCH with type `form` and a URL that parses and has a
query key, a request is built and handed to the client, and decoding its body as a form
gives every query key exactly one value, the first value of the key in the URL, and
gives no other key. -/
theorem form_body_first_values (rt : Runtime) (hrt : ∀ l, (rt.rangeKeys l).Perm l) (u : Str)
    (o : Bool) (method : Str) (keep : Bool) (headers p : Str) (pu : URL)
    (hp : Parse u = some pu) (hk : mapKeys pu.Query ≠ [])
    (hm : method = ascii "POST" ∨ method = ascii "PATCH") :
    ∃ req body, (processURL rt u o method keep headers p (ascii "form")).sent = some req ∧
      req.Body = some body ∧
      ∀ k, Values.values (ParseQuery body) k =
        if k ∈ mapKeys pu.Query then [Values.Get pu.Query k] else [] := by
  have he : encodeBody (ascii "form") pu.Query (rt.rangeKeys (mapKeys pu.Query)) =
      some (some (formBody pu.Query (rt.rangeKeys (mapKeys pu.Query))),
        ascii "application/x-www-form-urlencoded") := by
    unfold encodeBody
    rw [if_neg (by decide), if_neg (by decide)]
  have hs := processURL_sent rt hrt u o method keep headers p (ascii "form") pu hp hk hm _ _ he
  refine ⟨_, _, hs, (withHeaders_parts _ _ _).2.1, ?_⟩
  intro k
  have hn : (rt.rangeKeys (mapKeys pu.Query)).Nodup := rangeKeys_nodup rt hrt pu.RawQuery
  rw [formBody_values _ _ hn]
  by_cases hmem : k ∈ mapKeys pu.Query
  · rw [if_pos hmem, if_pos ((hrt _).mem_iff.2 hmem)]
  · rw [if_neg hmem, if_neg (fun h => hmem ((hrt _).mem_iff.1 h))]

/-- C7 as amended, on `http://x/?a=1&a=2&b=3` with method PATCH. -/
theorem form_body_first_values_witness :
    ∃ req body, (processURL (forwardRuntime []) (ascii "http://x/?a=1&a=2&b=3") false
        (ascii "PATCH") true [] defaultPayload (ascii "form")).sent = some req ∧
      req.Body = some body ∧
      ∀ k, Values.values (ParseQuery body) k =
        if k ∈ mapKeys (URL.Query ⟨ascii "http://x/", false, ascii "a=1&a=2&b=3", []⟩) then
          [Values.Get (URL.Query ⟨ascii "http://x/", false, ascii "a=1&a=2&b=3", []⟩) k]
        else [] :=
  form_body_first_values (forwardRuntime []) (fun l => List.Perm.refl l)
    (ascii "http://x/?a=1&a=2&b=3") false (ascii "PATCH") true [] defaultPayload
    ⟨ascii "http://x/", false, ascii "a=1&a=2&b=3", []⟩ (by decide) (by decide) (Or.inr rfl)

/-- C8: for POST or PATCH with type `form` or `json`, a URL that parses and has a query
key, and any custom header string, a request is built and handed to the client; its
`Content-Type` values are the single value of the body encoding, its header keys are
distinct and none but `Content-Type` spells `content-type` in another letter case, and
under every other name the values are those of the custom header entries of that name,
in their order. -/
theorem content_type_overrides_custom (rt : Runtime)
    (hrt : ∀ l, (rt.rangeKeys l).Perm l) (u : Str) (o : Bool) (method : Str) (keep : Bool)
    (headers p ct : Str) (pu : URL) (hp : Parse u = some pu) (hk : mapKeys pu.Query ≠ [])
    (hm : method = ascii "POST" ∨ method = ascii "PATCH")
    (hct : ct = ascii "form" ∨ ct = ascii "json") :
    ∃ req, (processURL rt u o method keep headers p ct).sent = some req ∧
      Header.Values req.Header (ascii "Content-Type") =
        [if ct = ascii "json" then ascii "application/json"
         else ascii "application/x-www-form-urlencoded"] ∧
      (mapKeys req.Header).Nodup ∧
      (∀ k ∈ mapKeys req.Header,
        k.map lowerByte = ascii "content-type" → k = ascii "Content-Type") ∧
      (∀ name, CanonicalMIMEHeaderKey name ≠ ascii "Content-Type" →
        Header.Values req.Header name =
          ((customHeaderEntries headers).filter
            (fun e => decide (CanonicalMIMEHeaderKey e.1 = CanonicalMIMEHeaderKey name))).map
            Prod.snd) := by
  have he : ∃ rb, encodeBody ct pu.Query (rt.rangeKeys (mapKeys pu.Query)) =
      some (rb, if ct = ascii "json" then ascii "application/json"
        else ascii "application/x-www-form-urlencoded") := by
    rcases hct with h | h
    · subst h
      refine ⟨some (formBody pu.Query (rt.rangeKeys (mapKeys pu.Query))), ?_⟩
      unfold encodeBody
      rw [if_neg (by decide), if_neg (by decide), if_neg (by decide)]
    · subst h
      refine ⟨some (jsonBody pu.Query (rt.rangeKeys (mapKeys pu.Query))), ?_⟩
      unfold encodeBody
      rw [if_pos rfl, if_pos rfl]
  obtain ⟨rb, he⟩ := he
  have hs := processURL_sent rt hrt u o method keep headers p ct pu hp hk hm _ _ he
  have hne : (if ct = ascii "json" then ascii "application/json"
      else ascii "application/x-www-form-urlencoded") ≠ [] := by
    split <;> decide
  exact ⟨_, hs, withHeaders_content_type _ rfl headers _ hne⟩

/-- C8 on a header string with two `Content-Type` entries in different letter case, one
other header and one entry without a colon. -/
theorem content_type_overrides_custom_witness :
    ∃ req, (processURL (forwardRuntime []) (ascii "http://x/?a=1") false (ascii "POST") false
        (ascii "content-type: text/plain, X-Token: t ,CONTENT-TYPE:text/xml,junk")
        defaultPayload (ascii "form")).sent = some req ∧
      Header.Values req.Header (ascii "Content-Type") =
        [ascii "application/x-www-form-urlencoded"] ∧
      Header.Values req.Header (ascii "X-Token") = [ascii "t"] ∧
      mapKeys req.Header = [ascii "Content-Type", ascii "X-Token"] := by
  obtain ⟨req, h1, h2, _, _, h5⟩ :=
    content_type_overrides_custom (forwardRuntime []) (fun l => List.Perm.refl l)
      (ascii "http://x/?a=1") false (ascii "POST") false
      (ascii "content-type: text/plain, X-Token: t ,CONTENT-TYPE:text/xml,junk")
      defaultPayload (ascii "form") ⟨ascii "http://x/", false, ascii "a=1", []⟩ (by decide)
      (by decide) (Or.inl rfl) (Or.inl rfl)
  have h6 : (processURL (forwardRuntime []) (ascii "http://x/?a=1") false (ascii "POST") false
        (ascii "content-type: text/plain, X-Token: t ,CONTENT-TYPE:text/xml,junk")
        defaultPayload (ascii "form")).sent =
      some ⟨ascii "POST", ⟨ascii "http://x/", false, [], []⟩,
        [(ascii "Content-Type", [ascii "application/x-www-form-urlencoded"]),
         (ascii "X-Token", [ascii "t"])], some (ascii "a=1")⟩ := by
    decide
  have h7 : req = ⟨ascii "POST", ⟨ascii "http://x/", false, [], []⟩,
        [(ascii "Content-Type", [ascii "application/x-www-form-urlencoded"]),
         (ascii "X-Token", [ascii "t"])], some (ascii "a=1")⟩ :=
    Option.some.inj (h1.symm.trans h6)
  refine ⟨req, h1, h2.trans (by decide), ?_, ?_⟩
  · rw [h5 (ascii "X-Token") (by decide)]
    decide
  · rw [h7]
    decide

end Rxss
